import Mathlib

/-!
Verification of the LittleCubes voxel-world storage, streaming and compression
engine: a shallow embedding in Lean of the BitPacking codec, the RLE layer of
chunk serialization, the Chunk store, the terrain generator, the World chunk
map, and the import validation, together with proofs and refutations of the
specified properties.

Conventions of the embedding:
- JavaScript numbers that the code uses as integers are modelled as Int (world
  and chunk coordinates) or Nat (block ids, byte values, counts).
- Uint8Array stores are modelled as List Nat with an explicit mod-256 at every
  write, reads out of range yield 0 (JS reads give undefined, which the bit
  operations and Uint8Array coercions of this code turn into 0).
- A JS Map with string keys of the shape xcommaycommaz is modelled as an
  association list keyed by the integer triple (the key encoding is injective);
  Map.set replaces in place, Map.delete removes, iteration is list order.
- The floating-point simplex-noise computations inside getTerrainHeight and the
  tree-noise sampling are abstracted as parameter functions of a
  TerrainGenerator value; every claim proved about generation is proved for all
  values of those parameters, hence in particular for the real noise functions.
- Event hooks (chunkGenerated, blockChanged, ...) call out to external
  collaborators and never touch the chunk map or cell data themselves; they are
  dropped from the model.
-/

namespace LittleCubes

/-- BitPacking.pack (src/utils/BitPacking.js, 4-bit format): two cells per
byte, high nibble first; blockId AND 0x0f is blockId mod 16.  The JS loop ORs
the two disjoint nibbles into each output byte; this recursion produces the
same byte list two input cells at a time (odd tail: low nibble left 0). -/
def pack : List Nat → List Nat
  | [] => []
  | [a] => [a % 16 * 16]
  | a :: b :: rest => (a % 16 * 16 + b % 16) :: pack rest

/-- BitPacking.unpack (src/utils/BitPacking.js): cell i comes from byte i/2,
high nibble for even i ((byte shr 4) AND 0x0f = byte / 16 mod 16), low nibble
for odd i (byte AND 0x0f = byte mod 16).  A read past the end of the packed
buffer is undefined in JS; shifted and masked it contributes 0, modelled by
getD with default 0.  Byte values are Uint8Array entries (below 256). -/
def unpack (packed : List Nat) (blockCount : Nat) : List Nat :=
  (List.range blockCount).map (fun i =>
    let byte := packed.getD (i / 2) 0
    if i % 2 = 0 then byte / 16 % 16 else byte % 16)

/-- BitPacking.unpack3bit (src/utils/BitPacking.js, legacy v3 format): cell i
starts at bit 3*i; a value either fits in one byte (bitOffset at most 5) or
spans two.  shr k is division by 2 pow k, shl k then AND 0x07 is
multiplication by 2 pow k mod 8, the OR is Nat.lor; the store into the
Uint8Array result truncates mod 256.  Byte values are Uint8Array entries. -/
def unpack3bit (packed : List Nat) (blockCount : Nat) : List Nat :=
  (List.range blockCount).map (fun i =>
    let bitIndex := 3 * i
    let byteIndex := bitIndex / 8
    let bitOffset := bitIndex % 8
    let blockId :=
      if bitOffset ≤ 5 then
        packed.getD byteIndex 0 / 2 ^ (5 - bitOffset) % 8
      else
        Nat.lor (packed.getD byteIndex 0 * 2 ^ (bitOffset - 5) % 8)
          (if byteIndex + 1 < packed.length then
            packed.getD (byteIndex + 1) 0 / 2 ^ (13 - bitOffset)
          else 0)
    blockId % 256)

/-- Run-length encoding loop of Chunk.serialize (src/world/Chunk.js): carries
the current byte and its run count (capped at 255), emits a (value, count)
pair when the byte changes or the cap is hit, and emits the final run after
the loop. -/
def rleLoop : List Nat → Nat → Nat → List (Nat × Nat)
  | [], cur, cnt => [(cur, cnt)]
  | b :: rest, cur, cnt =>
      if b = cur ∧ cnt < 255 then rleLoop rest cur (cnt + 1)
      else (cur, cnt) :: rleLoop rest b 1

/-- The full RLE encoder of Chunk.serialize.  On an empty buffer the JS code
reads packed[0], which is undefined (modelled as none), runs the loop zero
times and still pushes the final (undefined, 1) pair. -/
def rleEncode : List Nat → List (Option Nat × Nat)
  | [] => [(none, 1)]
  | b :: rest => (rleLoop rest b 1).map (fun p => (some p.1, p.2))

/-- RLE expansion as performed by Chunk.deserialize (v4 and v3 branches):
each (value, count) pair is replicated count times into a plain array which
is then converted to a Uint8Array, coercing undefined to 0 and truncating
every entry mod 256. -/
def rleExpand (pairs : List (Option Nat × Nat)) : List Nat :=
  pairs.flatMap (fun p => List.replicate p.2 (p.1.getD 0 % 256))

/-- Block ids assigned by sequential registration in src/blocks/types/index.js
(BlockRegistry.nextId starts at 1). -/
def BlockType.AIR : Nat := 0

/-- Grass block id (first registered). -/
def BlockType.GRASS : Nat := 1

/-- Dirt block id. -/
def BlockType.DIRT : Nat := 2

/-- Stone block id. -/
def BlockType.STONE : Nat := 3

/-- Sand block id. -/
def BlockType.SAND : Nat := 4

/-- Wood block id. -/
def BlockType.WOOD : Nat := 5

/-- Water block id. -/
def BlockType.WATER : Nat := 6

/-- Bedrock block id. -/
def BlockType.BEDROCK : Nat := 7

/-- Chunk (src/world/Chunk.js): coordinates in chunk space, a dense Uint8Array
of 16*16*16 cells, the dirty and modified flags.  The Three.js mesh and the
mesh-throttling bookkeeping are renderer-owned side artifacts with no effect
on cell data and are not modelled. -/
structure Chunk where
  x : Int
  y : Int
  z : Int
  blocks : List Nat
  dirty : Bool
  modified : Bool
deriving DecidableEq

/-- The Chunk constructor: 4096 zeroed cells, dirty true, modified false. -/
def Chunk.init (x y z : Int) : Chunk :=
  { x := x, y := y, z := z, blocks := List.replicate 4096 0,
    dirty := true, modified := false }

/-- Chunk.getIndex: x + y*SIZE + z*SIZE*SIZE with SIZE = 16. -/
def Chunk.getIndex (x y z : Int) : Int :=
  x + y * 16 + z * 256

/-- Chunk.getBlock: 0 outside the local cube, otherwise the cell value. -/
def Chunk.getBlock (c : Chunk) (x y z : Int) : Nat :=
  if x < 0 ∨ 16 ≤ x ∨ y < 0 ∨ 16 ≤ y ∨ z < 0 ∨ 16 ≤ z then 0
  else c.blocks.getD (Chunk.getIndex x y z).toNat 0

/-- Chunk.setBlock: no-op outside the local cube; otherwise writes the cell
(Uint8Array store truncates mod 256), sets dirty, and sets modified when
markModified is passed (JS default true). -/
def Chunk.setBlock (c : Chunk) (x y z : Int) (blockId : Nat)
    (markModified : Bool := true) : Chunk :=
  if x < 0 ∨ 16 ≤ x ∨ y < 0 ∨ 16 ≤ y ∨ z < 0 ∨ 16 ≤ z then c
  else
    { c with blocks := c.blocks.set (Chunk.getIndex x y z).toNat (blockId % 256),
             dirty := true,
             modified := c.modified || markModified }

/-- Chunk.markDirty. -/
def Chunk.markDirty (c : Chunk) : Chunk :=
  { c with dirty := true }

/-- A serialized chunk record: fields x, y, z, rle, bp, v of the v4 writer,
plus the optional blocks field of the legacy v1 format.  v and rle are
optional (absent in foreign records); rle holds the flat alternating
value/count stream as pairs, a value slot being none when the JS array held
undefined there (as the encoder emits on an empty buffer).  bp is the
truthiness of the bp field. -/
structure ChunkRecord where
  x : Int
  y : Int
  z : Int
  v : Option Int
  rle : Option (List (Option Nat × Nat))
  bp : Bool
  blocks : Option (List (Int × Int × Int × Nat))
deriving DecidableEq

/-- Chunk.serialize: 4-bit pack the cells, RLE the packed bytes, emit
x, y, z, rle, bp true, v 4. -/
def Chunk.serialize (c : Chunk) : ChunkRecord :=
  { x := c.x, y := c.y, z := c.z,
    v := some 4, rle := some (rleEncode (pack c.blocks)),
    bp := true, blocks := none }

/-- The v2 decode branch writes the expanded (blockId, count) stream
sequentially into the preexisting 4096-cell Uint8Array; writes past the end
of a typed array are dropped, cells past the stream keep their value. -/
def overwriteFront (blocks vals : List Nat) : List Nat :=
  vals.take blocks.length ++ blocks.drop vals.length

/-- Chunk.deserialize (src/world/Chunk.js): dispatches on the record fields —
v = 4 with rle and bp (4-bit packed RLE), v = 3 with rle and bp (3-bit packed
RLE), v = 2 with rle (plain byte RLE), a blocks field (v1 sparse list replayed
through setBlock), and otherwise leaves the fresh zeroed chunk as is.  In every
case modified and dirty are forced true at the end. -/
def Chunk.deserialize (data : ChunkRecord) : Chunk :=
  let chunk := Chunk.init data.x data.y data.z
  let chunk :=
    if data.v = some 4 ∧ data.rle.isSome ∧ data.bp then
      { chunk with blocks := unpack (rleExpand (data.rle.getD [])) 4096 }
    else if data.v = some 3 ∧ data.rle.isSome ∧ data.bp then
      { chunk with blocks := unpack3bit (rleExpand (data.rle.getD [])) 4096 }
    else if data.v = some 2 ∧ data.rle.isSome then
      { chunk with blocks := overwriteFront chunk.blocks (rleExpand (data.rle.getD [])) }
    else if data.blocks.isSome then
      (data.blocks.getD []).foldl
        (fun ch e => ch.setBlock e.1 e.2.1 e.2.2.1 e.2.2.2) chunk
    else chunk
  { chunk with modified := true, dirty := true }

/-- TerrainGenerator (src/world/TerrainGenerator.js).  th stands for
getTerrainHeight (an integer after Math.floor and the clamp to 0; its
floating-point octave sum over SimplexNoise is abstracted), treeNoiseHigh for
the comparison treeNoise greater than 0.8, treeHt for the derived trunk height
4 + floor(abs(treeNoise*10)) mod 2.  baseHeight and heightVariation are the
constructor constants 10 and 5. -/
structure TerrainGenerator where
  th : Int → Int → Int
  treeNoiseHigh : Int → Int → Bool
  treeHt : Int → Int → Nat
  baseHeight : Int := 10
  heightVariation : Int := 5

/-- TerrainGenerator.addTrees: on the coarse 4-step grid, where the tree noise
exceeds the density threshold and the surface sits low enough in this chunk
over a grass cell, write a trunk of wood and a 3x3x2 canopy (grass stands in
for leaves), skipping the canopy-top center, all through setBlock with
markModified false and with the source bounds checks. -/
def TerrainGenerator.addTrees (tg : TerrainGenerator) (chunk : Chunk)
    (chunkWorldX chunkWorldY chunkWorldZ : Int) : Chunk :=
  ([0, 4, 8, 12] : List Int).foldl (fun ch x =>
    ([0, 4, 8, 12] : List Int).foldl (fun ch z =>
      let worldX := chunkWorldX + x
      let worldZ := chunkWorldZ + z
      if tg.treeNoiseHigh worldX worldZ then
        let terrainHeight := tg.th worldX worldZ
        let localY := terrainHeight - chunkWorldY
        if 0 ≤ localY ∧ localY < 16 - 6 then
          let blockBelow := ch.getBlock x localY z
          if blockBelow = BlockType.GRASS then
            let treeHeight := tg.treeHt worldX worldZ
            let ch := (List.range treeHeight).foldl (fun ch ty0 =>
              let ty : Int := (ty0 : Int) + 1
              if localY + ty < 16 then
                ch.setBlock x (localY + ty) z BlockType.WOOD false
              else ch) ch
            let leafY := localY + (treeHeight : Int) + 1
            if leafY < 16 then
              ([-1, 0, 1] : List Int).foldl (fun ch lx =>
                ([-1, 0, 1] : List Int).foldl (fun ch lz =>
                  ([0, 1] : List Int).foldl (fun ch ly =>
                    if ly = 1 ∧ lx = 0 ∧ lz = 0 then ch
                    else
                      let checkX := x + lx
                      let checkZ := z + lz
                      let checkY := leafY + ly
                      if 0 ≤ checkX ∧ checkX < 16 ∧ 0 ≤ checkZ ∧ checkZ < 16 ∧
                          checkY < 16 then
                        ch.setBlock checkX checkY checkZ BlockType.GRASS false
                      else ch) ch) ch) ch
            else ch
          else ch
        else ch
      else ch) ch) chunk

/-- TerrainGenerator.generateChunk: skip chunks entirely above the maximum
possible height; fill chunks entirely below the minimum (but above bedrock)
with stone; otherwise assign per column, in source order: bedrock at world y
0, water or air above the surface, surface sand or grass, a dirt band, stone
below, then the tree pass.  Every write passes markModified false. -/
def TerrainGenerator.generateChunk (tg : TerrainGenerator) (chunk : Chunk) : Chunk :=
  let chunkWorldX := chunk.x * 16
  let chunkWorldY := chunk.y * 16
  let chunkWorldZ := chunk.z * 16
  let maxPossibleHeight := tg.baseHeight + tg.heightVariation
  let minPossibleHeight := tg.baseHeight - tg.heightVariation
  if chunkWorldY > maxPossibleHeight then chunk
  else if chunkWorldY + 16 < minPossibleHeight ∧ chunkWorldY > 0 then
    (List.range 16).foldl (fun ch x =>
      (List.range 16).foldl (fun ch y =>
        (List.range 16).foldl (fun ch z =>
          ch.setBlock (x : Int) (y : Int) (z : Int) BlockType.STONE false) ch) ch) chunk
  else
    let filled := (List.range 16).foldl (fun ch x =>
      (List.range 16).foldl (fun ch z =>
        let worldX := chunkWorldX + (x : Int)
        let worldZ := chunkWorldZ + (z : Int)
        let terrainHeight := tg.th worldX worldZ
        (List.range 16).foldl (fun ch y =>
          let worldY := chunkWorldY + (y : Int)
          if worldY = 0 then
            ch.setBlock (x : Int) (y : Int) (z : Int) BlockType.BEDROCK false
          else if worldY > terrainHeight then
            if worldY ≤ tg.baseHeight - 3 ∧ terrainHeight < tg.baseHeight - 3 then
              ch.setBlock (x : Int) (y : Int) (z : Int) BlockType.WATER false
            else
              ch.setBlock (x : Int) (y : Int) (z : Int) BlockType.AIR false
          else if worldY = terrainHeight then
            if terrainHeight < tg.baseHeight - 2 then
              ch.setBlock (x : Int) (y : Int) (z : Int) BlockType.SAND false
            else
              ch.setBlock (x : Int) (y : Int) (z : Int) BlockType.GRASS false
          else if worldY ≥ terrainHeight - 2 then
            ch.setBlock (x : Int) (y : Int) (z : Int) BlockType.DIRT false
          else
            ch.setBlock (x : Int) (y : Int) (z : Int) BlockType.STONE false) ch) ch) chunk
    tg.addTrees filled chunkWorldX chunkWorldY chunkWorldZ

/-- Key of the World chunk map.  The JS key is the string x,y,z; string keys
of integer triples are in bijection with the triples, so the map is keyed by
the triple directly. -/
abbrev ChunkKey := Int × Int × Int

/-- Map.get on the association list: first entry with the key. -/
def assocGet : List (ChunkKey × Chunk) → ChunkKey → Option Chunk
  | [], _ => none
  | p :: rest, k => if p.1 = k then some p.2 else assocGet rest k

/-- Map.set: replace in place when the key is present (JS Map keeps the
original position), append otherwise. -/
def assocSet (m : List (ChunkKey × Chunk)) (k : ChunkKey) (c : Chunk) :
    List (ChunkKey × Chunk) :=
  if m.any (fun p => decide (p.1 = k)) then
    m.map (fun p => if p.1 = k then (k, c) else p)
  else m ++ [(k, c)]

/-- Map.delete: drop the entry with the key. -/
def assocDelete : List (ChunkKey × Chunk) → ChunkKey → List (ChunkKey × Chunk)
  | [], _ => []
  | p :: rest, k => if p.1 = k then assocDelete rest k else p :: assocDelete rest k

/-- World (src/world/World.js): seed, the chunk map, the terrain generator and
the streaming configuration set by the constructor (renderDistance 4,
verticalRenderDistance 3, minHeight -2, maxHeight 8).  The hook lists start
empty and only external collaborators register callbacks; triggering them does
not touch the map or any chunk, so hooks are dropped from the model. -/
structure World where
  seed : Int
  chunks : List (ChunkKey × Chunk)
  tg : TerrainGenerator
  renderDistance : Int
  verticalRenderDistance : Int
  minHeight : Int
  maxHeight : Int

/-- The World constructor; tg stands for new TerrainGenerator(seed). -/
def World.init (seed : Int) (tg : TerrainGenerator) : World :=
  { seed := seed, chunks := [], tg := tg,
    renderDistance := 4, verticalRenderDistance := 3,
    minHeight := -2, maxHeight := 8 }

/-- World.worldToChunk: Math.floor of each coordinate over 16; for integer
inputs this is Int floor division (Lean Int division is Euclidean, which
agrees with floor division for the positive divisor 16). -/
def worldToChunk (x y z : Int) : ChunkKey :=
  (x / 16, y / 16, z / 16)

/-- The modulo helper of World.worldToLocal: ((n % 16) + 16) % 16, always in
[0, 16).  With Lean Int emod this expression computes the same value the JS
truncated remainder version does. -/
def jsFloorMod (n : Int) : Int :=
  (n % 16 + 16) % 16

/-- World.worldToLocal. -/
def worldToLocal (x y z : Int) : Int × Int × Int :=
  (jsFloorMod x, jsFloorMod y, jsFloorMod z)

/-- World.getChunk: pure lookup, no materialization. -/
def World.getChunk (w : World) (cx cy cz : Int) : Option Chunk :=
  assocGet w.chunks (cx, cy, cz)

/-- World.createChunk: return the existing chunk, or allocate a fresh one,
run the terrain generator on it, store it and return it (the chunkGenerated
hook is external). -/
def World.createChunk (w : World) (cx cy cz : Int) : World × Chunk :=
  match assocGet w.chunks (cx, cy, cz) with
  | some c => (w, c)
  | none =>
      let chunk := w.tg.generateChunk (Chunk.init cx cy cz)
      ({ w with chunks := assocSet w.chunks (cx, cy, cz) chunk }, chunk)

/-- World.getBlock: resolve to chunk plus local coordinates; air when the
owning chunk is absent. -/
def World.getBlock (w : World) (x y z : Int) : Nat :=
  let cp := worldToChunk x y z
  match assocGet w.chunks cp with
  | none => 0
  | some chunk =>
      let lp := worldToLocal x y z
      chunk.getBlock lp.1 lp.2.1 lp.2.2

/-- The neighbor-dirty step of World.setBlock: mark the chunk at the given
key dirty when it is loaded. -/
def markNeighborDirty (w : World) (k : ChunkKey) : World :=
  match assocGet w.chunks k with
  | some nc => { w with chunks := assocSet w.chunks k nc.markDirty }
  | none => w

/-- The neighbor-dirty cascade of World.setBlock: for each axis on which the
local coordinate sits on a chunk boundary face (0 or SIZE-1), mark the
adjacent loaded neighbor dirty, in source order x then y then z. -/
def markBoundaryNeighbors (w : World) (cp lp : Int × Int × Int) : World :=
  let w3 :=
    if lp.1 = 0 then markNeighborDirty w (cp.1 - 1, cp.2.1, cp.2.2)
    else if lp.1 = 16 - 1 then markNeighborDirty w (cp.1 + 1, cp.2.1, cp.2.2)
    else w
  let w4 :=
    if lp.2.1 = 0 then markNeighborDirty w3 (cp.1, cp.2.1 - 1, cp.2.2)
    else if lp.2.1 = 16 - 1 then markNeighborDirty w3 (cp.1, cp.2.1 + 1, cp.2.2)
    else w3
  if lp.2.2 = 0 then markNeighborDirty w4 (cp.1, cp.2.1, cp.2.2 - 1)
  else if lp.2.2 = 16 - 1 then markNeighborDirty w4 (cp.1, cp.2.1, cp.2.2 + 1)
  else w4

/-- World.setBlock: materialize the owning chunk on demand, write through to
it (then force its modified flag), and mark the adjacent loaded neighbor
dirty for each axis on which the local coordinate is 0 or 15 (the blockChanged
hook is external). -/
def World.setBlock (w : World) (x y z : Int) (blockId : Nat) : World :=
  let cp := worldToChunk x y z
  let wc := w.createChunk cp.1 cp.2.1 cp.2.2
  let w1 := wc.1
  let c1 := wc.2.setBlock (worldToLocal x y z).1 (worldToLocal x y z).2.1
      (worldToLocal x y z).2.2 blockId
  let c2 := { c1 with modified := true }
  let w2 := { w1 with chunks := assocSet w1.chunks cp c2 }
  markBoundaryNeighbors w2 cp (worldToLocal x y z)

/-- The inclusive integer range a..b of the source for loops. -/
def intRangeIncl (a b : Int) : List Int :=
  (List.range (b + 1 - a).toNat).map (fun (i : Nat) => a + (i : Int))

/-- The set of candidate chunk keys of World.updateChunks before frustum
culling: the horizontal radius around the player chunk, the vertical radius
around the clamped vertical chunk, restricted to the absolute height window
(the source continue), in source loop order (x outer, y middle, z inner). -/
def World.keepList (w : World) (pcx cly pcz : Int) : List ChunkKey :=
  (intRangeIncl (pcx - w.renderDistance) (pcx + w.renderDistance)).flatMap (fun cx =>
    ((intRangeIncl (cly - w.verticalRenderDistance)
        (cly + w.verticalRenderDistance)).filter
          (fun cy => decide (w.minHeight ≤ cy ∧ cy ≤ w.maxHeight))).flatMap (fun cy =>
      (intRangeIncl (pcz - w.renderDistance) (pcz + w.renderDistance)).map
        (fun cz => (cx, cy, cz))))

/-- The creation phase of World.updateChunks: materialize every surviving
candidate key that is absent, in loop order. -/
def createMissing (w : World) (keep : List ChunkKey) : World :=
  keep.foldl (fun wa k =>
    if (assocGet wa.chunks k).isSome then wa
    else (wa.createChunk k.1 k.2.1 k.2.2).1) w

/-- The unload phase of World.updateChunks: collect every loaded chunk not in
the surviving set whose modified flag is unset, then delete those keys
(dispose releases the mesh only; the chunkUnloaded hook is external). -/
def evictFar (w : World) (keep : List ChunkKey) : World :=
  let toUnload := (w.chunks.filter (fun p =>
    !(keep.contains p.1) && !p.2.modified)).map (fun p => p.1)
  { w with chunks := toUnload.foldl (fun m k => assocDelete m k) w.chunks }

/-- World.updateChunks: compute the player chunk, clamp its vertical
component, enumerate the window (cam models the optional camera; some f is
the frustum bounding-sphere test on a candidate key, none the missing
camera), materialize every surviving absent key, then delete every loaded
chunk outside the surviving set unless its modified flag is set. -/
def World.updateChunks (w : World) (px py pz : Int)
    (cam : Option (ChunkKey → Bool)) : World :=
  let pc := worldToChunk px py pz
  let cly := max w.minHeight (min w.maxHeight pc.2.1)
  let keep := (w.keepList pc.1 cly pc.2.2).filter (fun k =>
    match cam with
    | some f => f k
    | none => true)
  evictFar (createMissing w keep) keep

/-- The serialized world record: seed, the serialized modified chunks in map
iteration order, format version 4. -/
structure WorldRecord where
  seed : Int
  chunks : List ChunkRecord
  version : Int
deriving DecidableEq

/-- World.serialize: only chunks whose modified flag is set are emitted. -/
def World.serialize (w : World) : WorldRecord :=
  { seed := w.seed,
    chunks := (w.chunks.filter (fun p => p.2.modified)).map (fun p => p.2.serialize),
    version := 4 }

/-- World.deserialize: a fresh world with the stored seed (tg stands for the
new TerrainGenerator(data.seed)); every serialized chunk is decoded and
inserted keyed by its own coordinates; no generation runs for restored
chunks. -/
def World.deserialize (tg : TerrainGenerator) (data : WorldRecord) : World :=
  let world := World.init data.seed tg
  { world with
      chunks := data.chunks.foldl (fun m cd =>
        let chunk := Chunk.deserialize cd
        assocSet m (chunk.x, chunk.y, chunk.z) chunk) world.chunks }

/-- An edit of the round-trip scenario: world coordinates and the block id
passed to World.setBlock. -/
abbrev Edit := Int × Int × Int × Nat

/-- A finite sequence of World.setBlock edits applied in order. -/
def applyEdits (w : World) (edits : List Edit) : World :=
  edits.foldl (fun wa e => wa.setBlock e.1 e.2.1 e.2.2.1 e.2.2.2) w

/-- The cell index inside the owning chunk of a world coordinate. -/
def editIndex (x y z : Int) : Nat :=
  (Chunk.getIndex (jsFloorMod x) (jsFloorMod y) (jsFloorMod z)).toNat

/-- The state the round-trip argument tracks for one world coordinate: the
owning chunk is loaded, marked modified, and holds cell value v there. -/
def cellState (w : World) (x y z : Int) (v : Nat) : Prop :=
  ∃ c, assocGet w.chunks (worldToChunk x y z) = some c ∧
    c.modified = true ∧ c.blocks.getD (editIndex x y z) 0 = v

/-- The per-entry part of the chunk-map invariant: every entry stores a chunk
whose own coordinates equal its key and whose cell array has length 4096. -/
def entriesWF (m : List (ChunkKey × Chunk)) : Prop :=
  ∀ p ∈ m, (p.2.x, p.2.y, p.2.z) = p.1 ∧ p.2.blocks.length = 4096

/-- Representation invariant of a World chunk map, maintained by every
operation and trivially true of a fresh world: each entry stores a chunk
whose own coordinates equal its key and whose cell array has length 4096,
and keys are unique (a JS Map cannot hold a key twice). -/
def World.WF (w : World) : Prop :=
  entriesWF w.chunks ∧ (w.chunks.map (fun p => p.1)).Nodup

/-- World import document for ImportExport.validateWorldData
(src/utils/ImportExport.js).  version is the document version field (a JSON
string, absent when missing); world is the world object (absent when
missing; an object is always truthy); world.seed is the stored seed or
absent. -/
structure ImportWorldField where
  seed : Option Int
deriving DecidableEq

/-- The imported document as validateWorldData inspects it. -/
structure ImportDoc where
  version : Option String
  world : Option ImportWorldField
deriving DecidableEq

/-- JS truthiness of an optional string field: absent and the empty string
are falsy. -/
def truthyStr : Option String → Bool
  | none => false
  | some s => s ≠ ""

/-- ImportExport.validateWorldData: data && data.version && data.world &&
data.world.seed !== undefined, with && short-circuiting. -/
def validateWorldData (d : ImportDoc) : Bool :=
  truthyStr d.version &&
    match d.world with
    | none => false
    | some w => w.seed.isSome

/-- A concrete terrain generator instance used to evaluate theorems on
explicit inputs: surface height constantly 0, no trees. -/
def tgFlat : TerrainGenerator :=
  { th := fun _ _ => 0, treeNoiseHigh := fun _ _ => false, treeHt := fun _ _ => 4 }

/-- A concrete world for evaluating edge-edit propagation: the edited chunk
(1,0,0), its negative-x neighbor (0,0,0) with dirty cleared, and the far
chunk (5,5,5) with dirty cleared are loaded. -/
def wEdge : World :=
  { World.init 0 tgFlat with
      chunks := [((1, 0, 0), Chunk.init 1 0 0),
        ((0, 0, 0), { Chunk.init 0 0 0 with dirty := false }),
        ((5, 5, 5), { Chunk.init 5 5 5 with dirty := false })] }

/-- A concrete world for evaluating the streaming policy: radii shrunk to 0,
one far modified chunk at (20,0,0) and one far unmodified chunk at
(30,0,0). -/
def wStream : World :=
  { World.init 0 tgFlat with
      renderDistance := 0, verticalRenderDistance := 0,
      chunks := [((20, 0, 0), { Chunk.init 20 0 0 with modified := true }),
        ((30, 0, 0), Chunk.init 30 0 0)] }


/-! Lemmas about the bit-packing codec. -/

/-- Byte j of the packed stream combines cells 2j (high nibble) and 2j+1
(low nibble); absent cells contribute 0. -/
theorem pack_getD : ∀ (a : List Nat) (j : Nat),
    (pack a).getD j 0 = a.getD (2 * j) 0 % 16 * 16 + a.getD (2 * j + 1) 0 % 16
  | [], j => by simp [pack]
  | [a], 0 => by simp [pack]
  | [a], j + 1 => by
      have h2 : 2 * (j + 1) = 2 * j + 1 + 1 := by ring
      have h3 : 2 * (j + 1) + 1 = 2 * j + 1 + 1 + 1 := by ring
      simp [pack, h2, h3]
  | a :: b :: rest, 0 => by simp [pack]
  | a :: b :: rest, j + 1 => by
      have ih := pack_getD rest j
      have h2 : 2 * (j + 1) = 2 * j + 1 + 1 := by ring
      have h3 : 2 * (j + 1) + 1 = 2 * j + 1 + 1 + 1 := by ring
      simp only [pack, h2, h3, List.getD_cons_succ]
      exact ih

/-- The packed stream consists of bytes. -/
theorem pack_lt_256 : ∀ (a : List Nat), ∀ v ∈ pack a, v < 256
  | [], v, hv => by simp [pack] at hv
  | [a], v, hv => by
      simp [pack] at hv
      omega
  | a :: b :: rest, v, hv => by
      simp only [pack, List.mem_cons] at hv
      rcases hv with h | h
      · omega
      · exact pack_lt_256 rest v h

/-- The packed stream has one byte per two cells, rounded up. -/
theorem pack_length : ∀ (a : List Nat), (pack a).length = (a.length + 1) / 2
  | [] => by simp [pack]
  | [a] => by simp [pack]
  | a :: b :: rest => by
      simp only [pack, List.length_cons, pack_length rest]
      omega

/-- unpack produces exactly blockCount cells. -/
theorem unpack_length (p : List Nat) (n : Nat) : (unpack p n).length = n := by
  simp [unpack]

/-- Cell i of the unpacked stream, below blockCount: the relevant nibble of
byte i/2. -/
theorem unpack_getD (p : List Nat) (n i : Nat) (h : i < n) :
    (unpack p n).getD i 0 =
      if i % 2 = 0 then p.getD (i / 2) 0 / 16 % 16 else p.getD (i / 2) 0 % 16 := by
  simp [unpack, List.getD_eq_getElem?_getD, List.getElem?_map, List.getElem?_range h]

/-- Pointwise pack/unpack round trip: unpacking the packed stream recovers
every cell truncated to its low 4 bits. -/
theorem unpack_pack_getD (a : List Nat) (i : Nat) (h : i < a.length) :
    (unpack (pack a) a.length).getD i 0 = a.getD i 0 % 16 := by
  rw [unpack_getD _ _ _ h]
  rcases Nat.even_or_odd i with he | ho
  · have h0 : i % 2 = 0 := Nat.even_iff.mp he
    have h1 : 2 * (i / 2) = i := by omega
    rw [if_pos h0, pack_getD, h1]
    omega
  · have h0 : i % 2 = 1 := Nat.odd_iff.mp ho
    have h1 : 2 * (i / 2) + 1 = i := by omega
    rw [if_neg (by omega), pack_getD, h1]
    omega

/-- C2 — Bit-packing round-trip with truncation: for every array of byte
values, unpacking its packed form at its own length yields, at every index
below the length, the original value mod 16; and when every value lies in
[0, 15] (any length, in particular 0 up to 3 times 4096), the round trip
reproduces the array exactly. -/
theorem bitpacking_roundtrip (a : List Nat) (_hbytes : ∀ v ∈ a, v < 256) :
    (∀ i, i < a.length → (unpack (pack a) a.length).getD i 0 = a.getD i 0 % 16) ∧
      ((∀ v ∈ a, v < 16) → unpack (pack a) a.length = a) := by
  constructor
  · intro i hi
    exact unpack_pack_getD a i hi
  · intro hsmall
    apply List.ext_getElem
    · simp [unpack_length]
    · intro i h1 h2
      have hlen : i < a.length := h2
      have := unpack_pack_getD a i hlen
      rw [List.getD_eq_getElem _ _ h1, List.getD_eq_getElem _ _ h2] at this
      rw [this, Nat.mod_eq_of_lt (hsmall _ (List.getElem_mem h2))]

/-- Witness for C2 at a concrete byte array. -/
theorem bitpacking_roundtrip_witness :
    (∀ v ∈ [3, 20, 200, 7], v < 256) ∧
      (1 < ([3, 20, 200, 7] : List Nat).length →
        (unpack (pack [3, 20, 200, 7]) ([3, 20, 200, 7] : List Nat).length).getD 1 0 =
          ([3, 20, 200, 7] : List Nat).getD 1 0 % 16) ∧
      ((∀ v ∈ [3, 4, 8, 7], v < 16) →
        unpack (pack [3, 4, 8, 7]) ([3, 4, 8, 7] : List Nat).length = [3, 4, 8, 7]) :=
  ⟨by decide,
   fun h => (bitpacking_roundtrip [3, 20, 200, 7] (by decide)).1 1 h,
   (bitpacking_roundtrip [3, 4, 8, 7] (by decide)).2⟩

/-! Lemmas about the run-length encoder. -/

/-- Expanding the pairs the loop emits yields the pending run followed by
the remaining input, everything truncated mod 256 by the Uint8Array
conversion. -/
theorem rleExpand_rleLoop : ∀ (rest : List Nat) (cur cnt : Nat),
    rleExpand ((rleLoop rest cur cnt).map (fun p => (some p.1, p.2))) =
      List.replicate cnt (cur % 256) ++ rest.map (fun b => b % 256)
  | [], cur, cnt => by simp [rleLoop, rleExpand]
  | b :: rest, cur, cnt => by
      by_cases h : b = cur ∧ cnt < 255
      · rw [rleLoop, if_pos h, rleExpand_rleLoop rest cur (cnt + 1)]
        simp [List.replicate_succ', h.1]
      · rw [rleLoop, if_neg h]
        have ih := rleExpand_rleLoop rest b 1
        simp only [rleExpand, List.map_cons, List.flatMap_cons] at ih ⊢
        rw [ih]
        simp

/-- Mapping mod 256 over a list of bytes is the identity. -/
theorem map_mod256_self : ∀ (l : List Nat), (∀ b ∈ l, b < 256) →
    l.map (fun b => b % 256) = l
  | [], _ => rfl
  | b :: rest, h => by
      simp only [List.map_cons, List.cons.injEq]
      exact ⟨Nat.mod_eq_of_lt (h b (by simp)),
        map_mod256_self rest (fun v hv => h v (by simp [hv]))⟩

/-- C3 counterexample — the claim includes the empty buffer, but on an empty
packed buffer the encoder reads packed[0] as undefined and still emits the
final (undefined, 1) pair, which the deserializer expands to a single 0 byte,
not to the empty sequence. -/
theorem rle_roundtrip_empty_counterexample :
    rleExpand (rleEncode []) = [0] ∧ rleExpand (rleEncode []) ≠ [] := by
  constructor
  · rfl
  · intro h
    simp [rleEncode, rleExpand] at h

/-- C3 amended — RLE round-trip on nonempty buffers: for every nonempty
packed byte buffer, expanding the emitted (value, run length) pairs the way
the deserializer does reproduces the exact original byte sequence, including
buffers containing runs longer than 255, which are split across multiple
pairs. -/
theorem rle_roundtrip (l : List Nat) (hne : l ≠ []) (hbytes : ∀ b ∈ l, b < 256) :
    rleExpand (rleEncode l) = l := by
  match l, hne with
  | b :: rest, _ =>
    rw [rleEncode, rleExpand_rleLoop rest b 1]
    have hb : b % 256 = b := Nat.mod_eq_of_lt (hbytes b (by simp))
    rw [map_mod256_self rest (fun v hv => hbytes v (by simp [hv]))]
    simp [hb]

set_option maxRecDepth 4096 in
/-- Witness for C3 on a concrete buffer with a run longer than 255. -/
theorem rle_roundtrip_witness :
    (List.replicate 300 7 ++ [9] ≠ ([] : List Nat)) ∧
      (∀ b ∈ List.replicate 300 7 ++ [9], b < 256) ∧
      rleExpand (rleEncode (List.replicate 300 7 ++ [9])) =
        List.replicate 300 7 ++ [9] :=
  ⟨by simp, by decide,
   rle_roundtrip (List.replicate 300 7 ++ [9]) (by simp) (by decide)⟩

/-! Range invariants of the decoders. -/

/-- Every byte the deserializer RLE expansion produces is below 256 (the
Uint8Array conversion truncates). -/
theorem rleExpand_lt_256 (pairs : List (Option Nat × Nat)) :
    ∀ v ∈ rleExpand pairs, v < 256 := by
  intro v hv
  simp only [rleExpand, List.mem_flatMap] at hv
  obtain ⟨p, _, hvp⟩ := hv
  rw [List.eq_of_mem_replicate hvp]
  omega

/-- The or of two values below 8 stays below 8. -/
theorem lor_lt_8 : ∀ a < 8, ∀ b < 8, Nat.lor a b < 8 := by decide

/-- Every cell unpack produces is a 4-bit value. -/
theorem unpack_mem_lt_16 (p : List Nat) (n : Nat) : ∀ v ∈ unpack p n, v < 16 := by
  intro v hv
  simp only [unpack, List.mem_map] at hv
  obtain ⟨i, _, rfl⟩ := hv
  show (if i % 2 = 0 then p.getD (i / 2) 0 / 16 % 16 else p.getD (i / 2) 0 % 16) < 16
  split <;> omega

/-- Every cell unpack3bit produces from a byte buffer is a 3-bit value. -/
theorem unpack3bit_mem_lt_8 (p : List Nat) (n : Nat) (hbytes : ∀ b ∈ p, b < 256) :
    ∀ v ∈ unpack3bit p n, v < 8 := by
  intro v hv
  simp only [unpack3bit, List.mem_map] at hv
  obtain ⟨i, _, rfl⟩ := hv
  dsimp only
  have hlt : ∀ blockId, blockId < 8 → blockId % 256 < 8 := by
    intro blockId h
    calc blockId % 256 ≤ blockId := Nat.mod_le _ _
      _ < 8 := h
  apply hlt
  split
  · omega
  · rename_i hoff
    apply lor_lt_8 _ (by omega)
    split
    · rename_i hidx
      have hb : p.getD (3 * i / 8 + 1) 0 < 256 := by
        rw [List.getD_eq_getElem _ _ hidx]
        exact hbytes _ (List.getElem_mem hidx)
      have hcase : 3 * i % 8 = 6 ∨ 3 * i % 8 = 7 := by omega
      rcases hcase with h6 | h7
      · rw [h6, show (2 : Nat) ^ (13 - 6) = 128 from rfl]
        omega
      · rw [h7, show (2 : Nat) ^ (13 - 7) = 64 from rfl]
        omega
    · omega

/-- C10 — Implicit decode range invariant: unpack only produces values in
[0, 15] and unpack3bit only values in [0, 7] from byte buffers, for every
input buffer and requested block count; hence every cell of a chunk
deserialized through the v4 branch is below 16 and through the v3 branch
below 8, however corrupted the record data is. -/
theorem decode_range_invariant :
    (∀ (p : List Nat) (n : Nat), ∀ v ∈ unpack p n, v < 16) ∧
      (∀ (p : List Nat) (n : Nat), (∀ b ∈ p, b < 256) →
        ∀ v ∈ unpack3bit p n, v < 8) ∧
      (∀ d : ChunkRecord, d.v = some 4 ∧ d.rle.isSome ∧ d.bp →
        ∀ v ∈ (Chunk.deserialize d).blocks, v < 16) ∧
      (∀ d : ChunkRecord, ¬(d.v = some 4 ∧ d.rle.isSome ∧ d.bp) →
        d.v = some 3 ∧ d.rle.isSome ∧ d.bp →
        ∀ v ∈ (Chunk.deserialize d).blocks, v < 8) := by
  refine ⟨unpack_mem_lt_16, unpack3bit_mem_lt_8, ?_, ?_⟩
  · intro d h4 v hv
    rw [Chunk.deserialize] at hv
    simp only [if_pos h4] at hv
    exact unpack_mem_lt_16 _ _ v hv
  · intro d h4 h3 v hv
    rw [Chunk.deserialize] at hv
    simp only [if_neg h4, if_pos h3] at hv
    exact unpack3bit_mem_lt_8 _ _ (rleExpand_lt_256 _) v hv

/-- Witness for C10 on concrete corrupted records: an oversized byte in the
v4 stream and a v3 record. -/
theorem decode_range_invariant_witness :
    (15 ∈ unpack [255] 2 → 15 < 16) ∧
      ((∀ b ∈ [255, 255], b < 256) → 7 ∈ unpack3bit [255, 255] 3 → 7 < 8) ∧
      (let d4 : ChunkRecord :=
        { x := 0, y := 0, z := 0, v := some 4, rle := some [(some 999, 3)],
          bp := true, blocks := none }
       (d4.v = some 4 ∧ d4.rle.isSome ∧ d4.bp) →
        ∀ v ∈ (Chunk.deserialize d4).blocks, v < 16) ∧
      (let d3 : ChunkRecord :=
        { x := 0, y := 0, z := 0, v := some 3, rle := some [(some 999, 3)],
          bp := true, blocks := none }
       ¬(d3.v = some 4 ∧ d3.rle.isSome ∧ d3.bp) →
        (d3.v = some 3 ∧ d3.rle.isSome ∧ d3.bp) →
        ∀ v ∈ (Chunk.deserialize d3).blocks, v < 8) :=
  ⟨fun h => decode_range_invariant.1 [255] 2 15 h,
   fun hb h => decode_range_invariant.2.1 [255, 255] 3 hb 7 h,
   fun h => decode_range_invariant.2.2.1 _ h,
   fun h4 h3 => decode_range_invariant.2.2.2 _ h4 h3⟩

/-! Chunk bounds, unknown-version decode and import validation. -/

/-- C4 — Chunk bounds invariant: for every coordinate with any component
below 0 or at least 16, getBlock returns 0 and setBlock (with either value of
markModified) returns the chunk unchanged, so the cell array and every
in-bounds read are untouched. -/
theorem chunk_bounds_invariant (c : Chunk) (x y z : Int) (blockId : Nat)
    (mm : Bool) (hout : x < 0 ∨ 16 ≤ x ∨ y < 0 ∨ 16 ≤ y ∨ z < 0 ∨ 16 ≤ z) :
    c.getBlock x y z = 0 ∧ c.setBlock x y z blockId mm = c := by
  constructor
  · rw [Chunk.getBlock, if_pos hout]
  · rw [Chunk.setBlock, if_pos hout]

/-- Witness for C4 at a concrete out-of-bounds coordinate. -/
theorem chunk_bounds_invariant_witness :
    ((16 : Int) < 0 ∨ (16 : Int) ≤ 16 ∨ (3 : Int) < 0 ∨ (16 : Int) ≤ 3 ∨
        (-1 : Int) < 0 ∨ (16 : Int) ≤ -1) ∧
      (Chunk.init 0 0 0).getBlock 16 3 (-1) = 0 ∧
      (Chunk.init 0 0 0).setBlock 16 3 (-1) 5 true = Chunk.init 0 0 0 :=
  ⟨by decide,
   (chunk_bounds_invariant (Chunk.init 0 0 0) 16 3 (-1) 5 true (by decide)).1,
   (chunk_bounds_invariant (Chunk.init 0 0 0) 16 3 (-1) 5 true (by decide)).2⟩

/-- C8 — Unknown-version decode: when a record matches none of the four
decode branches (v4, v3, v2, v1 with its blocks field), deserialize returns
a chunk whose 4096 cells are all 0, with modified and dirty forced true, and
the function signals no error (it is total). -/
theorem unknown_version_decode (d : ChunkRecord)
    (h4 : ¬(d.v = some 4 ∧ d.rle.isSome ∧ d.bp))
    (h3 : ¬(d.v = some 3 ∧ d.rle.isSome ∧ d.bp))
    (h2 : ¬(d.v = some 2 ∧ d.rle.isSome))
    (h1 : ¬d.blocks.isSome) :
    (Chunk.deserialize d).blocks = List.replicate 4096 0 ∧
      (Chunk.deserialize d).modified = true ∧ (Chunk.deserialize d).dirty = true := by
  rw [Chunk.deserialize]
  simp only [if_neg h4, if_neg h3, if_neg h2, if_neg h1]
  exact ⟨rfl, trivial, trivial⟩

/-- Witness for C8 on a concrete future-version record. -/
theorem unknown_version_decode_witness :
    (let d : ChunkRecord :=
      { x := 1, y := 2, z := 3, v := some 9,
        rle := some [(some 1, 4)], bp := true, blocks := none }
     ¬(d.v = some 4 ∧ d.rle.isSome ∧ d.bp) ∧
       ¬(d.v = some 3 ∧ d.rle.isSome ∧ d.bp) ∧
       ¬(d.v = some 2 ∧ d.rle.isSome) ∧ ¬d.blocks.isSome ∧
       (Chunk.deserialize d).blocks = List.replicate 4096 0 ∧
       (Chunk.deserialize d).modified = true ∧ (Chunk.deserialize d).dirty = true) :=
  ⟨by decide, by decide, by decide, by decide,
   unknown_version_decode _ (by decide) (by decide) (by decide) (by decide)⟩

/-- C9 counterexample — the claim says validateWorldData accepts exactly the
documents that have a version field, a world field, and a defined world.seed;
but a document whose version field is present with a falsy value (the empty
string) has all three and is still rejected, because the code tests
truthiness, not presence. -/
theorem validate_presence_counterexample :
    (let d : ImportDoc := { version := some "", world := some { seed := some 1 } }
     d.version.isSome = true ∧ d.world.isSome = true ∧
       (∃ w, d.world = some w ∧ w.seed.isSome = true) ∧
       validateWorldData d = false) :=
  ⟨rfl, rfl, ⟨_, rfl, rfl⟩, rfl⟩

/-- C9 amended — Import validation: validateWorldData accepts a document if
and only if its version field is present and truthy (a nonempty string), its
world field is present, and world.seed is defined. -/
theorem validate_world_data_iff (d : ImportDoc) :
    validateWorldData d = true ↔
      (truthyStr d.version = true ∧ ∃ w, d.world = some w ∧ w.seed.isSome) := by
  rw [validateWorldData, Bool.and_eq_true]
  constructor
  · rintro ⟨hv, hw⟩
    refine ⟨hv, ?_⟩
    match hd : d.world with
    | none => rw [hd] at hw; exact absurd hw (by simp)
    | some w => rw [hd] at hw; exact ⟨w, rfl, hw⟩
  · rintro ⟨hv, w, hw, hs⟩
    rw [hw]
    exact ⟨hv, hs⟩

/-! Shape preservation of terrain generation: generation writes cells but
never changes a chunk's coordinates, cell-array length, or modified flag. -/

/-- The chunk components terrain generation must not disturb: coordinates,
cell-array length, modified flag. -/
def chunkShape (c : Chunk) : (Int × Int × Int) × Nat × Bool :=
  ((c.x, c.y, c.z), c.blocks.length, c.modified)

/-- A setBlock with markModified false preserves the shape. -/
theorem chunkShape_setBlock_false (c : Chunk) (x y z : Int) (blockId : Nat) :
    chunkShape (c.setBlock x y z blockId false) = chunkShape c := by
  rw [Chunk.setBlock]
  split
  · rfl
  · simp [chunkShape]

/-- A fold whose steps preserve the shape preserves the shape. -/
theorem foldl_chunkShape {α : Type} (f : Chunk → α → Chunk)
    (hf : ∀ c a, chunkShape (f c a) = chunkShape c) :
    ∀ (l : List α) (c : Chunk), chunkShape (l.foldl f c) = chunkShape c
  | [], _ => rfl
  | a :: l, c => (foldl_chunkShape f hf l (f c a)).trans (hf c a)

/-- The tree pass preserves coordinates, length and the modified flag: every
write passes markModified false. -/
theorem chunkShape_addTrees (tg : TerrainGenerator) (c : Chunk)
    (cwx cwy cwz : Int) : chunkShape (tg.addTrees c cwx cwy cwz) = chunkShape c := by
  rw [TerrainGenerator.addTrees]
  refine foldl_chunkShape _ ?_ _ _
  intro c1 x
  refine foldl_chunkShape _ ?_ _ _
  intro c2 z
  dsimp only
  split
  · split
    · split
      · split
        · refine (foldl_chunkShape _ ?_ _ _).trans (foldl_chunkShape _ ?_ _ _)
          · intro c3 lx
            refine foldl_chunkShape _ ?_ _ _
            intro c4 lz
            refine foldl_chunkShape _ ?_ _ _
            intro c5 ly
            dsimp only
            split
            · rfl
            · split
              · exact chunkShape_setBlock_false _ _ _ _ _
              · rfl
          · intro c3 ty0
            dsimp only
            split
            · exact chunkShape_setBlock_false _ _ _ _ _
            · rfl
        · refine foldl_chunkShape _ ?_ _ _
          intro c3 ty0
          dsimp only
          split
          · exact chunkShape_setBlock_false _ _ _ _ _
          · rfl
      · rfl
    · rfl
  · rfl

/-- Terrain generation preserves coordinates, length and the modified flag. -/
theorem chunkShape_generateChunk (tg : TerrainGenerator) (c : Chunk) :
    chunkShape (tg.generateChunk c) = chunkShape c := by
  rw [TerrainGenerator.generateChunk]
  dsimp only
  split
  · rfl
  · split
    · refine foldl_chunkShape _ ?_ _ _
      intro c1 x
      refine foldl_chunkShape _ ?_ _ _
      intro c2 y
      refine foldl_chunkShape _ ?_ _ _
      intro c3 z
      exact chunkShape_setBlock_false _ _ _ _ _
    · refine (chunkShape_addTrees _ _ _ _ _).trans ?_
      refine foldl_chunkShape _ ?_ _ _
      intro c1 x
      refine foldl_chunkShape _ ?_ _ _
      intro c2 z
      dsimp only
      refine foldl_chunkShape _ ?_ _ _
      intro c3 y
      dsimp only
      split
      · exact chunkShape_setBlock_false _ _ _ _ _
      · split
        · split
          · exact chunkShape_setBlock_false _ _ _ _ _
          · exact chunkShape_setBlock_false _ _ _ _ _
        · split
          · split
            · exact chunkShape_setBlock_false _ _ _ _ _
            · exact chunkShape_setBlock_false _ _ _ _ _
          · split
            · exact chunkShape_setBlock_false _ _ _ _ _
            · exact chunkShape_setBlock_false _ _ _ _ _

/-- C6 — Generation never marks chunks as user-modified: running
generateChunk (including the addTrees pass) on a chunk whose modified flag is
false leaves it false, for every terrain generator (in particular the real
noise functions). -/
theorem generation_never_marks_modified (tg : TerrainGenerator) (c : Chunk)
    (h : c.modified = false) : (tg.generateChunk c).modified = false := by
  have hs := chunkShape_generateChunk tg c
  have hm : (tg.generateChunk c).modified = c.modified :=
    congrArg (fun s => s.2.2) hs
  rw [hm, h]

/-- Witness for C6 on a freshly constructed chunk. -/
theorem generation_never_marks_modified_witness :
    (Chunk.init 0 1 0).modified = false ∧
      (tgFlat.generateChunk (Chunk.init 0 1 0)).modified = false :=
  ⟨rfl, generation_never_marks_modified tgFlat (Chunk.init 0 1 0) rfl⟩

/-! Lemmas about the chunk map (JS Map semantics on the association list). -/

/-- Replacing the entries with key k does not disturb keys. -/
theorem assocKeys_replace (m : List (ChunkKey × Chunk)) (k : ChunkKey) (c : Chunk) :
    (m.map (fun p => if p.1 = k then (k, c) else p)).map (fun p => p.1) =
      m.map (fun p => p.1) := by
  induction m with
  | nil => rfl
  | cons p rest ih =>
      by_cases hp : p.1 = k
      · simp [hp, ih]
      · simp [hp, ih]

/-- Lookup after a replace-style set at the same key. -/
theorem assocGet_replace_self (m : List (ChunkKey × Chunk)) (k : ChunkKey) (c : Chunk)
    (h : m.any (fun p => decide (p.1 = k)) = true) :
    assocGet (m.map (fun p => if p.1 = k then (k, c) else p)) k = some c := by
  induction m with
  | nil => simp at h
  | cons p rest ih =>
      by_cases hp : p.1 = k
      · rw [List.map_cons, if_pos hp, assocGet, if_pos rfl]
      · rw [List.any_cons] at h
        have h2 := Bool.or_eq_true_iff.mp h
        have hr : rest.any (fun p => decide (p.1 = k)) = true := by
          rcases h2 with h1 | h1
          · exact absurd (of_decide_eq_true h1) hp
          · exact h1
        rw [List.map_cons, if_neg hp, assocGet, if_neg hp]
        exact ih hr

/-- Lookup after a replace-style set at a different key. -/
theorem assocGet_replace_ne (m : List (ChunkKey × Chunk)) (k k2 : ChunkKey) (c : Chunk)
    (h : k2 ≠ k) :
    assocGet (m.map (fun p => if p.1 = k then (k, c) else p)) k2 = assocGet m k2 := by
  induction m with
  | nil => rfl
  | cons p rest ih =>
      by_cases hp : p.1 = k
      · have hk2 : ¬k = k2 := fun he => h he.symm
        have hp2 : ¬p.1 = k2 := by rw [hp]; exact hk2
        rw [List.map_cons, if_pos hp, assocGet, if_neg hk2, assocGet, if_neg hp2]
        exact ih
      · rw [List.map_cons, if_neg hp, assocGet, assocGet]
        by_cases hp2 : p.1 = k2
        · rw [if_pos hp2, if_pos hp2]
        · rw [if_neg hp2, if_neg hp2]
          exact ih

/-- Lookup at a key with no entry in the map. -/
theorem assocGet_eq_none_of_not_any (m : List (ChunkKey × Chunk)) (k : ChunkKey)
    (h : m.any (fun p => decide (p.1 = k)) = false) : assocGet m k = none := by
  induction m with
  | nil => rfl
  | cons p rest ih =>
      rw [List.any_cons] at h
      have h2 := Bool.or_eq_false_iff.mp h
      rw [assocGet, if_neg (of_decide_eq_false h2.1)]
      exact ih h2.2

/-- Lookup in an append-style set at the appended key, absent before. -/
theorem assocGet_append_single (m : List (ChunkKey × Chunk)) (k : ChunkKey) (c : Chunk)
    (h : m.any (fun p => decide (p.1 = k)) = false) :
    assocGet (m ++ [(k, c)]) k = some c := by
  induction m with
  | nil => rw [List.nil_append, assocGet, if_pos rfl]
  | cons p rest ih =>
      rw [List.any_cons] at h
      have h2 := Bool.or_eq_false_iff.mp h
      rw [List.cons_append, assocGet, if_neg (of_decide_eq_false h2.1)]
      exact ih h2.2

/-- Lookup in an append-style set at a different key. -/
theorem assocGet_append_single_ne (m : List (ChunkKey × Chunk)) (k k2 : ChunkKey)
    (c : Chunk) (h : k2 ≠ k) : assocGet (m ++ [(k, c)]) k2 = assocGet m k2 := by
  induction m with
  | nil =>
      rw [List.nil_append]
      show (if k = k2 then some c else assocGet [] k2) = assocGet [] k2
      rw [if_neg (fun he => h he.symm)]
  | cons p rest ih =>
      rw [List.cons_append, assocGet, assocGet]
      by_cases hp2 : p.1 = k2
      · rw [if_pos hp2, if_pos hp2]
      · rw [if_neg hp2, if_neg hp2]
        exact ih

/-- Map.set then Map.get at the set key yields the new chunk. -/
theorem assocGet_set_self (m : List (ChunkKey × Chunk)) (k : ChunkKey) (c : Chunk) :
    assocGet (assocSet m k c) k = some c := by
  rw [assocSet]
  split
  · exact assocGet_replace_self m k c (by assumption)
  · rename_i h
    exact assocGet_append_single m k c (Bool.eq_false_iff.mpr h)

/-- Map.set then Map.get at a different key is unchanged. -/
theorem assocGet_set_ne (m : List (ChunkKey × Chunk)) (k k2 : ChunkKey) (c : Chunk)
    (h : k2 ≠ k) : assocGet (assocSet m k c) k2 = assocGet m k2 := by
  rw [assocSet]
  split
  · exact assocGet_replace_ne m k k2 c h
  · exact assocGet_append_single_ne m k k2 c h

/-- Map.delete then Map.get at the deleted key. -/
theorem assocGet_delete_self (m : List (ChunkKey × Chunk)) (k : ChunkKey) :
    assocGet (assocDelete m k) k = none := by
  induction m with
  | nil => rfl
  | cons p rest ih =>
      rw [assocDelete]
      by_cases hp : p.1 = k
      · rw [if_pos hp]
        exact ih
      · rw [if_neg hp, assocGet, if_neg hp]
        exact ih

/-- Map.delete then Map.get at a different key is unchanged. -/
theorem assocGet_delete_ne (m : List (ChunkKey × Chunk)) (k k2 : ChunkKey)
    (h : k2 ≠ k) : assocGet (assocDelete m k) k2 = assocGet m k2 := by
  induction m with
  | nil => rfl
  | cons p rest ih =>
      rw [assocDelete]
      by_cases hp : p.1 = k
      · have hp2 : ¬p.1 = k2 := by rw [hp]; exact fun he => h he.symm
        rw [if_pos hp, assocGet, if_neg hp2]
        exact ih
      · rw [if_neg hp, assocGet, assocGet]
        by_cases hp2 : p.1 = k2
        · rw [if_pos hp2, if_pos hp2]
        · rw [if_neg hp2, if_neg hp2]
          exact ih

/-- Map.delete yields a sublist. -/
theorem assocDelete_sublist (m : List (ChunkKey × Chunk)) (k : ChunkKey) :
    (assocDelete m k).Sublist m := by
  induction m with
  | nil => exact List.Sublist.refl _
  | cons p rest ih =>
      rw [assocDelete]
      by_cases hp : p.1 = k
      · rw [if_pos hp]
        exact ih.cons p
      · rw [if_neg hp]
        exact ih.cons₂ p

/-- An entry found by Map.get is in the list with that key. -/
theorem mem_of_assocGet (m : List (ChunkKey × Chunk)) (k : ChunkKey) (c : Chunk)
    (h : assocGet m k = some c) : (k, c) ∈ m := by
  induction m with
  | nil => exact absurd h (by rw [assocGet]; simp)
  | cons p rest ih =>
      rw [assocGet] at h
      by_cases hp : p.1 = k
      · rw [if_pos hp] at h
        have : p = (k, c) := by
          obtain ⟨p1, p2⟩ := p
          cases hp
          cases Option.some.inj h
          rfl
        rw [← this]
        exact List.mem_cons_self p rest
      · rw [if_neg hp] at h
        exact List.mem_cons_of_mem p (ih h)

/-- With unique keys, a member entry is what Map.get returns. -/
theorem assocGet_of_mem_nodup (m : List (ChunkKey × Chunk)) (k : ChunkKey) (c : Chunk)
    (hmem : (k, c) ∈ m) (hnd : (m.map (fun p => p.1)).Nodup) :
    assocGet m k = some c := by
  induction m with
  | nil => simp at hmem
  | cons p rest ih =>
      rw [List.map_cons, List.nodup_cons] at hnd
      rcases List.mem_cons.mp hmem with he | hr
      · rw [assocGet, ← he, if_pos rfl]
      · have hp : ¬p.1 = k := by
          intro hk
          exact hnd.1 (hk ▸ List.mem_map.mpr ⟨(k, c), hr, rfl⟩)
        rw [assocGet, if_neg hp]
        exact ih hr hnd.2

/-- Map.set preserves key uniqueness. -/
theorem assocSet_nodup (m : List (ChunkKey × Chunk)) (k : ChunkKey) (c : Chunk)
    (hnd : (m.map (fun p => p.1)).Nodup) :
    ((assocSet m k c).map (fun p => p.1)).Nodup := by
  rw [assocSet]
  split
  · rw [assocKeys_replace]
    exact hnd
  · rename_i h
    have hk : k ∉ m.map (fun p => p.1) := by
      intro hmem
      obtain ⟨p, hp, hpk⟩ := List.mem_map.mp hmem
      exact h (List.any_eq_true.mpr ⟨p, hp, decide_eq_true hpk⟩)
    rw [List.map_append]
    refine List.Nodup.append hnd (by simp) ?_
    intro a ha hb
    rw [List.map_singleton, List.mem_singleton] at hb
    subst hb
    exact hk ha

/-- Map.delete preserves key uniqueness. -/
theorem assocDelete_nodup (m : List (ChunkKey × Chunk)) (k : ChunkKey)
    (hnd : (m.map (fun p => p.1)).Nodup) :
    ((assocDelete m k).map (fun p => p.1)).Nodup :=
  ((assocDelete_sublist m k).map (fun p => p.1)).nodup hnd

/-! Lemmas about neighbor-dirty marking and chunk creation. -/

/-- Marking a neighbor dirty does not change lookups at other keys. -/
theorem markNeighborDirty_get_ne (w : World) (k k2 : ChunkKey) (h : k2 ≠ k) :
    assocGet (markNeighborDirty w k).chunks k2 = assocGet w.chunks k2 := by
  rw [markNeighborDirty]
  split
  · exact assocGet_set_ne _ _ _ _ h
  · rfl

/-- Marking a neighbor dirty preserves any markDirty-stable property of the
chunk stored at any key. -/
theorem markNeighborDirty_get_prop (P : Chunk → Prop)
    (hP : ∀ c, P c → P c.markDirty) (w : World) (k2 k : ChunkKey)
    (h : ∃ c, assocGet w.chunks k = some c ∧ P c) :
    ∃ c, assocGet (markNeighborDirty w k2).chunks k = some c ∧ P c := by
  obtain ⟨c, hc, hPc⟩ := h
  rw [markNeighborDirty]
  split
  · rename_i nc hnc
    by_cases hk : k = k2
    · subst hk
      rw [hnc] at hc
      cases Option.some.inj hc
      exact ⟨c.markDirty, assocGet_set_self _ _ _, hP c hPc⟩
    · exact ⟨c, (assocGet_set_ne _ _ _ _ hk).trans hc, hPc⟩
  · exact ⟨c, hc, hPc⟩

/-- Marking a neighbor dirty keeps every loaded chunk loaded. -/
theorem markNeighborDirty_loaded (w : World) (k2 k : ChunkKey)
    (h : ∃ c, assocGet w.chunks k = some c) :
    ∃ c, assocGet (markNeighborDirty w k2).chunks k = some c := by
  obtain ⟨c, hc⟩ := h
  obtain ⟨c2, hc2, _⟩ := markNeighborDirty_get_prop (fun _ => True)
    (fun _ _ => trivial) w k2 k ⟨c, hc, trivial⟩
  exact ⟨c2, hc2⟩

/-- Marking a loaded neighbor dirty sets its dirty flag. -/
theorem markNeighborDirty_marks (w : World) (k : ChunkKey)
    (h : ∃ c, assocGet w.chunks k = some c) :
    ∃ c2, assocGet (markNeighborDirty w k).chunks k = some c2 ∧ c2.dirty = true := by
  obtain ⟨c, hc⟩ := h
  rw [markNeighborDirty]
  split
  · exact ⟨_, assocGet_set_self _ _ _, rfl⟩
  · rename_i hnone
    rw [hnone] at hc
    cases hc

/-- Dirtiness at a key survives further neighbor marking. -/
theorem markNeighborDirty_dirty_pres (w : World) (k2 k : ChunkKey)
    (h : ∃ c, assocGet w.chunks k = some c ∧ c.dirty = true) :
    ∃ c, assocGet (markNeighborDirty w k2).chunks k = some c ∧ c.dirty = true :=
  markNeighborDirty_get_prop (fun c => c.dirty = true) (fun _ _ => rfl) w k2 k h

/-- The neighbor keys the boundary cascade actually marks, given the chunk
coordinate and local coordinate of an edit. -/
def markedNeighborKeys (cp lp : Int × Int × Int) : List ChunkKey :=
  (if lp.1 = 0 then [(cp.1 - 1, cp.2.1, cp.2.2)]
   else if lp.1 = 16 - 1 then [(cp.1 + 1, cp.2.1, cp.2.2)] else []) ++
    ((if lp.2.1 = 0 then [(cp.1, cp.2.1 - 1, cp.2.2)]
      else if lp.2.1 = 16 - 1 then [(cp.1, cp.2.1 + 1, cp.2.2)] else []) ++
      (if lp.2.2 = 0 then [(cp.1, cp.2.1, cp.2.2 - 1)]
       else if lp.2.2 = 16 - 1 then [(cp.1, cp.2.1, cp.2.2 + 1)] else []))

/-- The boundary cascade preserves any markDirty-stable property at any
key. -/
theorem markBoundaryNeighbors_get_prop (P : Chunk → Prop)
    (hP : ∀ c, P c → P c.markDirty) (w : World) (cp lp : Int × Int × Int)
    (k : ChunkKey) (h : ∃ c, assocGet w.chunks k = some c ∧ P c) :
    ∃ c, assocGet (markBoundaryNeighbors w cp lp).chunks k = some c ∧ P c := by
  rw [markBoundaryNeighbors]
  repeat' split
  all_goals
    repeat apply markNeighborDirty_get_prop P hP
  all_goals exact h

/-- The boundary cascade does not change lookups at keys it does not mark. -/
theorem markBoundaryNeighbors_get_ne (w : World) (cp lp : Int × Int × Int)
    (k : ChunkKey)
    (h1 : k ≠ (cp.1 - 1, cp.2.1, cp.2.2)) (h2 : k ≠ (cp.1 + 1, cp.2.1, cp.2.2))
    (h3 : k ≠ (cp.1, cp.2.1 - 1, cp.2.2)) (h4 : k ≠ (cp.1, cp.2.1 + 1, cp.2.2))
    (h5 : k ≠ (cp.1, cp.2.1, cp.2.2 - 1)) (h6 : k ≠ (cp.1, cp.2.1, cp.2.2 + 1)) :
    assocGet (markBoundaryNeighbors w cp lp).chunks k = assocGet w.chunks k := by
  rw [markBoundaryNeighbors]
  repeat' split
  all_goals
    repeat rw [markNeighborDirty_get_ne _ _ _ (by assumption)]
  all_goals rfl

/-- One axis step of the cascade (mark one of two opposite neighbors, or
neither) keeps every loaded chunk loaded. -/
theorem axisStep_loaded (w : World) (cond1 cond2 : Prop) [Decidable cond1]
    [Decidable cond2] (k1 k2 nk : ChunkKey)
    (h : ∃ c, assocGet w.chunks nk = some c) :
    ∃ c, assocGet (if cond1 then markNeighborDirty w k1
      else if cond2 then markNeighborDirty w k2 else w).chunks nk = some c := by
  split
  · exact markNeighborDirty_loaded _ _ _ h
  · split
    · exact markNeighborDirty_loaded _ _ _ h
    · exact h

/-- One axis step of the cascade preserves dirtiness at any key. -/
theorem axisStep_dirty (w : World) (cond1 cond2 : Prop) [Decidable cond1]
    [Decidable cond2] (k1 k2 nk : ChunkKey)
    (h : ∃ c, assocGet w.chunks nk = some c ∧ c.dirty = true) :
    ∃ c, assocGet (if cond1 then markNeighborDirty w k1
      else if cond2 then markNeighborDirty w k2 else w).chunks nk = some c ∧
      c.dirty = true := by
  split
  · exact markNeighborDirty_dirty_pres _ _ _ h
  · split
    · exact markNeighborDirty_dirty_pres _ _ _ h
    · exact h

/-- The boundary cascade marks every loaded chunk whose key it targets. -/
theorem markBoundaryNeighbors_marks (w : World) (cp lp : Int × Int × Int)
    (nk : ChunkKey) (hmem : nk ∈ markedNeighborKeys cp lp)
    (hload : ∃ c, assocGet w.chunks nk = some c) :
    ∃ c2, assocGet (markBoundaryNeighbors w cp lp).chunks nk = some c2 ∧
      c2.dirty = true := by
  rw [markedNeighborKeys] at hmem
  rw [markBoundaryNeighbors]
  rcases List.mem_append.mp hmem with hx | hyz
  · split at hx
    case _ hc =>
      rw [List.mem_singleton] at hx
      subst hx
      rw [if_pos hc]
      exact axisStep_dirty _ _ _ _ _ _ (axisStep_dirty _ _ _ _ _ _
        (markNeighborDirty_marks w _ hload))
    case _ hc =>
      split at hx
      case _ hc2 =>
        rw [List.mem_singleton] at hx
        subst hx
        rw [if_neg hc, if_pos hc2]
        exact axisStep_dirty _ _ _ _ _ _ (axisStep_dirty _ _ _ _ _ _
          (markNeighborDirty_marks w _ hload))
      case _ hc2 =>
        cases hx
  · rcases List.mem_append.mp hyz with hy | hz
    · have hl3 := axisStep_loaded w (lp.1 = 0) (lp.1 = 16 - 1)
        (cp.1 - 1, cp.2.1, cp.2.2) (cp.1 + 1, cp.2.1, cp.2.2) nk hload
      split at hy
      case _ hc =>
        rw [List.mem_singleton] at hy
        subst hy
        rw [if_pos hc]
        exact axisStep_dirty _ _ _ _ _ _ (markNeighborDirty_marks _ _ hl3)
      case _ hc =>
        split at hy
        case _ hc2 =>
          rw [List.mem_singleton] at hy
          subst hy
          rw [if_neg hc, if_pos hc2]
          exact axisStep_dirty _ _ _ _ _ _ (markNeighborDirty_marks _ _ hl3)
        case _ hc2 =>
          cases hy
    · have hl3 := axisStep_loaded w (lp.1 = 0) (lp.1 = 16 - 1)
        (cp.1 - 1, cp.2.1, cp.2.2) (cp.1 + 1, cp.2.1, cp.2.2) nk hload
      have hl4 := axisStep_loaded _ (lp.2.1 = 0) (lp.2.1 = 16 - 1)
        (cp.1, cp.2.1 - 1, cp.2.2) (cp.1, cp.2.1 + 1, cp.2.2) nk hl3
      split at hz
      case _ hc =>
        rw [List.mem_singleton] at hz
        subst hz
        rw [if_pos hc]
        exact markNeighborDirty_marks _ _ hl4
      case _ hc =>
        split at hz
        case _ hc2 =>
          rw [List.mem_singleton] at hz
          subst hz
          rw [if_neg hc, if_pos hc2]
          exact markNeighborDirty_marks _ _ hl4
        case _ hc2 =>
          cases hz

/-- createChunk leaves lookups at other keys unchanged. -/
theorem createChunk_get_ne (w : World) (cx cy cz : Int) (k : ChunkKey)
    (h : k ≠ (cx, cy, cz)) :
    assocGet (w.createChunk cx cy cz).1.chunks k = assocGet w.chunks k := by
  rw [World.createChunk]
  split
  · rfl
  · exact assocGet_set_ne _ _ _ _ h

/-- createChunk returns the chunk stored at its key. -/
theorem createChunk_get_self (w : World) (cx cy cz : Int) :
    assocGet (w.createChunk cx cy cz).1.chunks (cx, cy, cz) =
      some (w.createChunk cx cy cz).2 := by
  rw [World.createChunk]
  split
  · assumption
  · exact assocGet_set_self _ _ _

/-- World.setBlock marks every targeted, loaded boundary neighbor dirty. -/
theorem setBlock_marks_neighbor (w : World) (x y z : Int) (blockId : Nat)
    (nk : ChunkKey)
    (hmem : nk ∈ markedNeighborKeys (worldToChunk x y z) (worldToLocal x y z))
    (hne : nk ≠ worldToChunk x y z)
    (hload : ∃ c, assocGet w.chunks nk = some c) :
    ∃ c2, assocGet (w.setBlock x y z blockId).chunks nk = some c2 ∧
      c2.dirty = true := by
  rw [World.setBlock]
  apply markBoundaryNeighbors_marks _ _ _ _ hmem
  obtain ⟨c, hc⟩ := hload
  refine ⟨c, ?_⟩
  have hcc : assocGet ((w.createChunk (worldToChunk x y z).1 (worldToChunk x y z).2.1
      (worldToChunk x y z).2.2).1).chunks nk = assocGet w.chunks nk :=
    createChunk_get_ne _ _ _ _ _ hne
  rw [assocGet_set_ne _ _ _ _ hne, hcc]
  exact hc

/-- World.setBlock leaves lookups unchanged away from the edited chunk and
the marked neighbors. -/
theorem setBlock_get_far (w : World) (x y z : Int) (blockId : Nat) (k : ChunkKey)
    (hcp : k ≠ worldToChunk x y z)
    (h1 : k ≠ ((worldToChunk x y z).1 - 1, (worldToChunk x y z).2.1,
      (worldToChunk x y z).2.2))
    (h2 : k ≠ ((worldToChunk x y z).1 + 1, (worldToChunk x y z).2.1,
      (worldToChunk x y z).2.2))
    (h3 : k ≠ ((worldToChunk x y z).1, (worldToChunk x y z).2.1 - 1,
      (worldToChunk x y z).2.2))
    (h4 : k ≠ ((worldToChunk x y z).1, (worldToChunk x y z).2.1 + 1,
      (worldToChunk x y z).2.2))
    (h5 : k ≠ ((worldToChunk x y z).1, (worldToChunk x y z).2.1,
      (worldToChunk x y z).2.2 - 1))
    (h6 : k ≠ ((worldToChunk x y z).1, (worldToChunk x y z).2.1,
      (worldToChunk x y z).2.2 + 1)) :
    assocGet (w.setBlock x y z blockId).chunks k = assocGet w.chunks k := by
  rw [World.setBlock]
  have hcc : assocGet ((w.createChunk (worldToChunk x y z).1 (worldToChunk x y z).2.1
      (worldToChunk x y z).2.2).1).chunks k = assocGet w.chunks k :=
    createChunk_get_ne _ _ _ _ _ hcp
  rw [markBoundaryNeighbors_get_ne _ _ _ _ h1 h2 h3 h4 h5 h6,
    assocGet_set_ne _ _ _ _ hcp, hcc]

/-- C7 — Edge-edit propagation: a World.setBlock whose local coordinate is 0
on an axis marks the adjacent loaded neighbor chunk on the negative side of
that axis dirty (local 15 the positive side), for each of the three axes, and
leaves the map entry (hence the dirty flag) of every loaded chunk other than
the edited chunk and the marked face neighbors unchanged — in particular of
every non-adjacent loaded chunk. -/
theorem edge_edit_propagation (w : World) (x y z : Int) (blockId : Nat) :
    ((worldToLocal x y z).1 = 0 →
      (∃ c, assocGet w.chunks ((worldToChunk x y z).1 - 1,
        (worldToChunk x y z).2.1, (worldToChunk x y z).2.2) = some c) →
      ∃ c2, assocGet (w.setBlock x y z blockId).chunks ((worldToChunk x y z).1 - 1,
        (worldToChunk x y z).2.1, (worldToChunk x y z).2.2) = some c2 ∧
        c2.dirty = true) ∧
    ((worldToLocal x y z).1 = 15 →
      (∃ c, assocGet w.chunks ((worldToChunk x y z).1 + 1,
        (worldToChunk x y z).2.1, (worldToChunk x y z).2.2) = some c) →
      ∃ c2, assocGet (w.setBlock x y z blockId).chunks ((worldToChunk x y z).1 + 1,
        (worldToChunk x y z).2.1, (worldToChunk x y z).2.2) = some c2 ∧
        c2.dirty = true) ∧
    ((worldToLocal x y z).2.1 = 0 →
      (∃ c, assocGet w.chunks ((worldToChunk x y z).1,
        (worldToChunk x y z).2.1 - 1, (worldToChunk x y z).2.2) = some c) →
      ∃ c2, assocGet (w.setBlock x y z blockId).chunks ((worldToChunk x y z).1,
        (worldToChunk x y z).2.1 - 1, (worldToChunk x y z).2.2) = some c2 ∧
        c2.dirty = true) ∧
    ((worldToLocal x y z).2.1 = 15 →
      (∃ c, assocGet w.chunks ((worldToChunk x y z).1,
        (worldToChunk x y z).2.1 + 1, (worldToChunk x y z).2.2) = some c) →
      ∃ c2, assocGet (w.setBlock x y z blockId).chunks ((worldToChunk x y z).1,
        (worldToChunk x y z).2.1 + 1, (worldToChunk x y z).2.2) = some c2 ∧
        c2.dirty = true) ∧
    ((worldToLocal x y z).2.2 = 0 →
      (∃ c, assocGet w.chunks ((worldToChunk x y z).1,
        (worldToChunk x y z).2.1, (worldToChunk x y z).2.2 - 1) = some c) →
      ∃ c2, assocGet (w.setBlock x y z blockId).chunks ((worldToChunk x y z).1,
        (worldToChunk x y z).2.1, (worldToChunk x y z).2.2 - 1) = some c2 ∧
        c2.dirty = true) ∧
    ((worldToLocal x y z).2.2 = 15 →
      (∃ c, assocGet w.chunks ((worldToChunk x y z).1,
        (worldToChunk x y z).2.1, (worldToChunk x y z).2.2 + 1) = some c) →
      ∃ c2, assocGet (w.setBlock x y z blockId).chunks ((worldToChunk x y z).1,
        (worldToChunk x y z).2.1, (worldToChunk x y z).2.2 + 1) = some c2 ∧
        c2.dirty = true) ∧
    (∀ k : ChunkKey, k ≠ worldToChunk x y z →
      k ≠ ((worldToChunk x y z).1 - 1, (worldToChunk x y z).2.1,
        (worldToChunk x y z).2.2) →
      k ≠ ((worldToChunk x y z).1 + 1, (worldToChunk x y z).2.1,
        (worldToChunk x y z).2.2) →
      k ≠ ((worldToChunk x y z).1, (worldToChunk x y z).2.1 - 1,
        (worldToChunk x y z).2.2) →
      k ≠ ((worldToChunk x y z).1, (worldToChunk x y z).2.1 + 1,
        (worldToChunk x y z).2.2) →
      k ≠ ((worldToChunk x y z).1, (worldToChunk x y z).2.1,
        (worldToChunk x y z).2.2 - 1) →
      k ≠ ((worldToChunk x y z).1, (worldToChunk x y z).2.1,
        (worldToChunk x y z).2.2 + 1) →
      assocGet (w.setBlock x y z blockId).chunks k = assocGet w.chunks k) := by
  refine ⟨?_, ?_, ?_, ?_, ?_, ?_, ?_⟩
  · intro hlp hload
    refine setBlock_marks_neighbor w x y z blockId _ ?_ ?_ hload
    · rw [markedNeighborKeys]
      apply List.mem_append_left
      rw [if_pos hlp]
      exact List.mem_singleton.mpr rfl
    · intro he
      have h1 := congrArg (fun p => p.1) he
      simp only at h1
      omega
  · intro hlp hload
    refine setBlock_marks_neighbor w x y z blockId _ ?_ ?_ hload
    · rw [markedNeighborKeys]
      apply List.mem_append_left
      rw [if_neg (by rw [hlp]; decide), if_pos (by rw [hlp]; decide)]
      exact List.mem_singleton.mpr rfl
    · intro he
      have h1 := congrArg (fun p => p.1) he
      simp only at h1
      omega
  · intro hlp hload
    refine setBlock_marks_neighbor w x y z blockId _ ?_ ?_ hload
    · rw [markedNeighborKeys]
      apply List.mem_append_right
      apply List.mem_append_left
      rw [if_pos hlp]
      exact List.mem_singleton.mpr rfl
    · intro he
      have h1 := congrArg (fun p => p.2.1) he
      simp only at h1
      omega
  · intro hlp hload
    refine setBlock_marks_neighbor w x y z blockId _ ?_ ?_ hload
    · rw [markedNeighborKeys]
      apply List.mem_append_right
      apply List.mem_append_left
      rw [if_neg (by rw [hlp]; decide), if_pos (by rw [hlp]; decide)]
      exact List.mem_singleton.mpr rfl
    · intro he
      have h1 := congrArg (fun p => p.2.1) he
      simp only at h1
      omega
  · intro hlp hload
    refine setBlock_marks_neighbor w x y z blockId _ ?_ ?_ hload
    · rw [markedNeighborKeys]
      apply List.mem_append_right
      apply List.mem_append_right
      rw [if_pos hlp]
      exact List.mem_singleton.mpr rfl
    · intro he
      have h1 := congrArg (fun p => p.2.2) he
      simp only at h1
      omega
  · intro hlp hload
    refine setBlock_marks_neighbor w x y z blockId _ ?_ ?_ hload
    · rw [markedNeighborKeys]
      apply List.mem_append_right
      apply List.mem_append_right
      rw [if_neg (by rw [hlp]; decide), if_pos (by rw [hlp]; decide)]
      exact List.mem_singleton.mpr rfl
    · intro he
      have h1 := congrArg (fun p => p.2.2) he
      simp only at h1
      omega
  · intro k hcp h1 h2 h3 h4 h5 h6
    exact setBlock_get_far w x y z blockId k hcp h1 h2 h3 h4 h5 h6

/-- Witness for C7: editing at world (16,3,4), local x 0 of chunk (1,0,0),
marks loaded neighbor (0,0,0) dirty and leaves far chunk (5,5,5) alone. -/
theorem edge_edit_propagation_witness :
    (worldToLocal 16 3 4).1 = 0 ∧
      (∃ c, assocGet wEdge.chunks ((worldToChunk 16 3 4).1 - 1,
        (worldToChunk 16 3 4).2.1, (worldToChunk 16 3 4).2.2) = some c) ∧
      (∃ c2, assocGet (wEdge.setBlock 16 3 4 2).chunks ((worldToChunk 16 3 4).1 - 1,
        (worldToChunk 16 3 4).2.1, (worldToChunk 16 3 4).2.2) = some c2 ∧
        c2.dirty = true) ∧
      assocGet (wEdge.setBlock 16 3 4 2).chunks (5, 5, 5) =
        assocGet wEdge.chunks (5, 5, 5) :=
  ⟨rfl, ⟨_, rfl⟩,
   (edge_edit_propagation wEdge 16 3 4 2).1 rfl ⟨_, rfl⟩,
   (edge_edit_propagation wEdge 16 3 4 2).2.2.2.2.2.2 (5, 5, 5) (by decide)
     (by decide) (by decide) (by decide) (by decide) (by decide) (by decide)⟩

/-! Lemmas about the streaming policy. -/

/-- The creation phase never disturbs an existing map entry. -/
theorem createMissing_get_some (keep : List ChunkKey) (w : World) (k : ChunkKey)
    (c : Chunk) (h : assocGet w.chunks k = some c) :
    assocGet (createMissing w keep).chunks k = some c := by
  induction keep generalizing w with
  | nil => exact h
  | cons k0 rest ih =>
      rw [createMissing, List.foldl_cons]
      apply ih
      split
      · exact h
      · rename_i habs
        by_cases hk : k = (k0.1, k0.2.1, k0.2.2)
        · subst hk
          rw [h] at habs
          exact absurd rfl habs
        · rw [createChunk_get_ne _ _ _ _ _ hk]
          exact h

/-- createChunk preserves key uniqueness. -/
theorem createChunk_nodup (w : World) (cx cy cz : Int)
    (hnd : (w.chunks.map (fun p => p.1)).Nodup) :
    (((w.createChunk cx cy cz).1.chunks).map (fun p => p.1)).Nodup := by
  rw [World.createChunk]
  split
  · exact hnd
  · exact assocSet_nodup _ _ _ hnd

/-- The creation phase preserves key uniqueness. -/
theorem createMissing_nodup (keep : List ChunkKey) (w : World)
    (hnd : (w.chunks.map (fun p => p.1)).Nodup) :
    ((createMissing w keep).chunks.map (fun p => p.1)).Nodup := by
  induction keep generalizing w with
  | nil => exact hnd
  | cons k0 rest ih =>
      rw [createMissing, List.foldl_cons]
      apply ih
      split
      · exact hnd
      · exact createChunk_nodup _ _ _ _ hnd

/-- Deleting any key preserves an absent lookup. -/
theorem assocGet_delete_none (m : List (ChunkKey × Chunk)) (k k2 : ChunkKey)
    (h : assocGet m k = none) : assocGet (assocDelete m k2) k = none := by
  by_cases hk : k = k2
  · subst hk
    exact assocGet_delete_self m k
  · rw [assocGet_delete_ne _ _ _ hk]
    exact h

/-- Folding deletions over keys not containing k leaves the lookup at k
unchanged. -/
theorem deleteFold_get_ne (dl : List ChunkKey) (m : List (ChunkKey × Chunk))
    (k : ChunkKey) (h : k ∉ dl) :
    assocGet (dl.foldl (fun m k => assocDelete m k) m) k = assocGet m k := by
  induction dl generalizing m with
  | nil => rfl
  | cons k0 rest ih =>
      rw [List.foldl_cons]
      rw [ih _ (fun hm => h (List.mem_cons_of_mem _ hm))]
      exact assocGet_delete_ne _ _ _ (fun he => h (he ▸ List.mem_cons_self k0 rest))

/-- Folding deletions over keys containing k removes the entry at k. -/
theorem deleteFold_get_mem (dl : List ChunkKey) (m : List (ChunkKey × Chunk))
    (k : ChunkKey) (h : k ∈ dl) :
    assocGet (dl.foldl (fun m k => assocDelete m k) m) k = none := by
  induction dl generalizing m with
  | nil => simp at h
  | cons k0 rest ih =>
      rw [List.foldl_cons]
      by_cases hk : k ∈ rest
      · exact ih _ hk
      · have hk0 : k = k0 := by
          rcases List.mem_cons.mp h with he | hr
          · exact he
          · exact absurd hr hk
        subst hk0
        rw [deleteFold_get_ne _ _ _ hk]
        exact assocGet_delete_self _ _

/-- The unload phase keeps a modified chunk untouched. -/
theorem evictFar_modified (w : World) (keep : List ChunkKey) (k : ChunkKey)
    (c : Chunk) (hnd : (w.chunks.map (fun p => p.1)).Nodup)
    (h : assocGet w.chunks k = some c) (hmod : c.modified = true) :
    assocGet (evictFar w keep).chunks k = some c := by
  rw [evictFar]
  have hnotin : k ∉ (w.chunks.filter (fun p =>
      !(keep.contains p.1) && !p.2.modified)).map (fun p => p.1) := by
    intro hmem
    obtain ⟨p, hp, hpk⟩ := List.mem_map.mp hmem
    obtain ⟨hpmem, hpred⟩ := List.mem_filter.mp hp
    obtain ⟨p1, p2⟩ := p
    cases hpk
    have : p2 = c := by
      have := assocGet_of_mem_nodup _ _ _ hpmem hnd
      rw [this] at h
      exact Option.some.inj h
    subst this
    rw [Bool.and_eq_true, Bool.not_eq_true'] at hpred
    rw [hmod] at hpred
    exact absurd hpred.2 (by simp)
  rw [deleteFold_get_ne _ _ _ hnotin]
  exact h

/-- The unload phase removes an unmodified chunk whose key is outside the
surviving set. -/
theorem evictFar_removes (w : World) (keep : List ChunkKey) (k : ChunkKey)
    (c : Chunk) (h : assocGet w.chunks k = some c) (hmod : c.modified = false)
    (hk : k ∉ keep) : assocGet (evictFar w keep).chunks k = none := by
  rw [evictFar]
  have hmem : k ∈ (w.chunks.filter (fun p =>
      !(keep.contains p.1) && !p.2.modified)).map (fun p => p.1) := by
    refine List.mem_map.mpr ⟨(k, c), List.mem_filter.mpr ⟨mem_of_assocGet _ _ _ h, ?_⟩, rfl⟩
    rw [Bool.and_eq_true, Bool.not_eq_true', Bool.not_eq_true']
    refine ⟨?_, hmod⟩
    rw [← Bool.not_eq_true]
    intro hc
    rw [List.contains] at hc
    exact hk (List.elem_iff.mp hc)
  exact deleteFold_get_mem _ _ _ hmem

/-- Membership in the inclusive integer range. -/
theorem intRangeIncl_mem (a b x : Int) : x ∈ intRangeIncl a b ↔ a ≤ x ∧ x ≤ b := by
  rw [intRangeIncl]
  constructor
  · intro h
    obtain ⟨i, hi, rfl⟩ := List.mem_map.mp h
    rw [List.mem_range] at hi
    omega
  · intro h
    refine List.mem_map.mpr ⟨(x - a).toNat, ?_, by omega⟩
    rw [List.mem_range]
    omega

/-- Membership in the candidate window of updateChunks. -/
theorem keepList_mem (w : World) (pcx cly pcz kx ky kz : Int) :
    (kx, ky, kz) ∈ w.keepList pcx cly pcz ↔
      (pcx - w.renderDistance ≤ kx ∧ kx ≤ pcx + w.renderDistance ∧
        cly - w.verticalRenderDistance ≤ ky ∧
        ky ≤ cly + w.verticalRenderDistance ∧
        w.minHeight ≤ ky ∧ ky ≤ w.maxHeight ∧
        pcz - w.renderDistance ≤ kz ∧ kz ≤ pcz + w.renderDistance) := by
  rw [World.keepList]
  constructor
  · intro h
    obtain ⟨cx, hcx, h⟩ := List.mem_flatMap.mp h
    obtain ⟨cy, hcy, h⟩ := List.mem_flatMap.mp h
    obtain ⟨cz, hcz, heq⟩ := List.mem_map.mp h
    obtain ⟨hcy1, hcy2⟩ := List.mem_filter.mp hcy
    rw [intRangeIncl_mem] at hcx hcy1 hcz
    rw [decide_eq_true_eq] at hcy2
    obtain ⟨he1, he2, he3⟩ : cx = kx ∧ cy = ky ∧ cz = kz := by
      refine ⟨congrArg (fun p => p.1) heq, congrArg (fun p => p.2.1) heq,
        congrArg (fun p => p.2.2) heq⟩
    subst he1
    subst he2
    subst he3
    exact ⟨hcx.1, hcx.2, hcy1.1, hcy1.2, hcy2.1, hcy2.2, hcz.1, hcz.2⟩
  · intro h
    refine List.mem_flatMap.mpr ⟨kx, (intRangeIncl_mem _ _ _).mpr ⟨h.1, h.2.1⟩, ?_⟩
    refine List.mem_flatMap.mpr ⟨ky, List.mem_filter.mpr
      ⟨(intRangeIncl_mem _ _ _).mpr ⟨h.2.2.1, h.2.2.2.1⟩,
        decide_eq_true ⟨h.2.2.2.2.1, h.2.2.2.2.2.1⟩⟩, ?_⟩
    exact List.mem_map.mpr ⟨kz, (intRangeIncl_mem _ _ _).mpr
      ⟨h.2.2.2.2.2.2.1, h.2.2.2.2.2.2.2⟩, rfl⟩

/-- C5 — Eviction exemption: a chunk whose modified flag is true is never
removed from the chunk map by any call to updateChunks (any observer
position, with or without frustum information); and with no frustum
information, every loaded chunk with modified false whose coordinate violates
the streaming window (horizontal radius, vertical radius around the clamped
observer chunk, or the absolute vertical bounds) is removed. -/
theorem eviction_exemption :
    (∀ (w : World) (px py pz : Int) (cam : Option (ChunkKey → Bool))
      (k : ChunkKey) (c : Chunk),
      (w.chunks.map (fun p => p.1)).Nodup →
      assocGet w.chunks k = some c → c.modified = true →
      assocGet (w.updateChunks px py pz cam).chunks k = some c) ∧
    (∀ (w : World) (px py pz kx ky kz : Int) (c : Chunk),
      (w.chunks.map (fun p => p.1)).Nodup →
      assocGet w.chunks (kx, ky, kz) = some c → c.modified = false →
      (kx < (worldToChunk px py pz).1 - w.renderDistance ∨
        (worldToChunk px py pz).1 + w.renderDistance < kx ∨
        ky < max w.minHeight (min w.maxHeight (worldToChunk px py pz).2.1) -
          w.verticalRenderDistance ∨
        max w.minHeight (min w.maxHeight (worldToChunk px py pz).2.1) +
          w.verticalRenderDistance < ky ∨
        ky < w.minHeight ∨ w.maxHeight < ky ∨
        kz < (worldToChunk px py pz).2.2 - w.renderDistance ∨
        (worldToChunk px py pz).2.2 + w.renderDistance < kz) →
      assocGet (w.updateChunks px py pz none).chunks (kx, ky, kz) = none) := by
  constructor
  · intro w px py pz cam k c hnd hget hmod
    rw [World.updateChunks]
    exact evictFar_modified _ _ _ _ (createMissing_nodup _ _ hnd)
      (createMissing_get_some _ _ _ _ hget) hmod
  · intro w px py pz kx ky kz c hnd hget hmod hout
    rw [World.updateChunks]
    have hfilter : (w.keepList (worldToChunk px py pz).1
        (max w.minHeight (min w.maxHeight (worldToChunk px py pz).2.1))
        (worldToChunk px py pz).2.2).filter
          (fun k => match (none : Option (ChunkKey → Bool)) with
            | some f => f k
            | none => true) =
        w.keepList (worldToChunk px py pz).1
          (max w.minHeight (min w.maxHeight (worldToChunk px py pz).2.1))
          (worldToChunk px py pz).2.2 :=
      List.filter_true _
    rw [hfilter]
    apply evictFar_removes _ _ _ c (createMissing_get_some _ _ _ _ hget) hmod
    intro hmem
    rw [keepList_mem] at hmem
    omega

/-- Witness for C5 on the concrete streaming world: the far modified chunk at
(20,0,0) survives, the far unmodified chunk at (30,0,0) is evicted. -/
theorem eviction_exemption_witness :
    ((wStream.chunks.map (fun p => p.1)).Nodup ∧
      assocGet wStream.chunks (20, 0, 0) =
        some { Chunk.init 20 0 0 with modified := true } ∧
      ({ Chunk.init 20 0 0 with modified := true } : Chunk).modified = true ∧
      assocGet (wStream.updateChunks 1 128 1 none).chunks (20, 0, 0) =
        some { Chunk.init 20 0 0 with modified := true }) ∧
    (assocGet wStream.chunks (30, 0, 0) = some (Chunk.init 30 0 0) ∧
      (Chunk.init 30 0 0).modified = false ∧
      ((30 : Int) < (worldToChunk 1 128 1).1 - wStream.renderDistance ∨
        (worldToChunk 1 128 1).1 + wStream.renderDistance < 30 ∨
        (0 : Int) < max wStream.minHeight (min wStream.maxHeight
          (worldToChunk 1 128 1).2.1) - wStream.verticalRenderDistance ∨
        max wStream.minHeight (min wStream.maxHeight (worldToChunk 1 128 1).2.1) +
          wStream.verticalRenderDistance < 0 ∨
        (0 : Int) < wStream.minHeight ∨ wStream.maxHeight < 0 ∨
        (0 : Int) < (worldToChunk 1 128 1).2.2 - wStream.renderDistance ∨
        (worldToChunk 1 128 1).2.2 + wStream.renderDistance < 0) ∧
      assocGet (wStream.updateChunks 1 128 1 none).chunks (30, 0, 0) = none) :=
  ⟨⟨by decide, rfl, rfl,
    eviction_exemption.1 wStream 1 128 1 none (20, 0, 0)
      { Chunk.init 20 0 0 with modified := true } (by decide) rfl rfl⟩,
   ⟨rfl, rfl, by decide,
    eviction_exemption.2 wStream 1 128 1 30 0 0 (Chunk.init 30 0 0) (by decide)
      rfl rfl (by decide)⟩⟩

/-! Lemmas for the world save/load round trip. -/

/-- The floor modulo always lands in the local cube. -/
theorem jsFloorMod_bounds (n : Int) : 0 ≤ jsFloorMod n ∧ jsFloorMod n < 16 := by
  rw [jsFloorMod]
  omega

/-- The cell index of a world coordinate is inside the array. -/
theorem editIndex_lt (x y z : Int) : editIndex x y z < 4096 := by
  rw [editIndex, Chunk.getIndex]
  have hx := jsFloorMod_bounds x
  have hy := jsFloorMod_bounds y
  have hz := jsFloorMod_bounds z
  omega

/-- Chunk coordinate and a local coordinate in [0,16) determine the world
coordinate: two distinct world coordinates in the same chunk have distinct
cell indices. -/
theorem editIndex_inj (x y z x2 y2 z2 : Int)
    (hc : worldToChunk x y z = worldToChunk x2 y2 z2)
    (hne : ¬(x = x2 ∧ y = y2 ∧ z = z2)) : editIndex x y z ≠ editIndex x2 y2 z2 := by
  have h1 := congrArg (fun p => p.1) hc
  have h2 := congrArg (fun p => p.2.1) hc
  have h3 := congrArg (fun p => p.2.2) hc
  simp only [worldToChunk] at h1 h2 h3
  rw [editIndex, editIndex, Chunk.getIndex, Chunk.getIndex, jsFloorMod, jsFloorMod,
    jsFloorMod, jsFloorMod, jsFloorMod, jsFloorMod]
  intro he
  apply hne
  omega

/-- getD after set at the written index. -/
theorem getD_set_self (l : List Nat) (i : Nat) (v : Nat) (h : i < l.length) :
    (l.set i v).getD i 0 = v := by
  rw [List.getD_eq_getElem?_getD, List.getElem?_set_self h]
  rfl

/-- getD after set at a different index. -/
theorem getD_set_ne (l : List Nat) (i j : Nat) (v : Nat) (h : i ≠ j) :
    (l.set i v).getD j 0 = l.getD j 0 := by
  rw [List.getD_eq_getElem?_getD, List.getElem?_set_ne h, ← List.getD_eq_getElem?_getD]

/-- Chunk.setBlock never changes coordinates or the array length. -/
theorem setBlock_coords_len (c : Chunk) (x y z : Int) (id : Nat) (mm : Bool) :
    (c.setBlock x y z id mm).x = c.x ∧ (c.setBlock x y z id mm).y = c.y ∧
      (c.setBlock x y z id mm).z = c.z ∧
      (c.setBlock x y z id mm).blocks.length = c.blocks.length := by
  rw [Chunk.setBlock]
  split
  · exact ⟨rfl, rfl, rfl, rfl⟩
  · exact ⟨rfl, rfl, rfl, List.length_set _ _ _⟩

/-- Chunk.deserialize keeps the record coordinates. -/
theorem deserialize_coords (d : ChunkRecord) :
    (Chunk.deserialize d).x = d.x ∧ (Chunk.deserialize d).y = d.y ∧
      (Chunk.deserialize d).z = d.z := by
  rw [Chunk.deserialize]
  split
  · exact ⟨rfl, rfl, rfl⟩
  · split
    · exact ⟨rfl, rfl, rfl⟩
    · split
      · exact ⟨rfl, rfl, rfl⟩
      · split
        · have : ∀ (l : List (Int × Int × Int × Nat)) (c : Chunk),
              (l.foldl (fun ch e => ch.setBlock e.1 e.2.1 e.2.2.1 e.2.2.2) c).x = c.x ∧
                (l.foldl (fun ch e => ch.setBlock e.1 e.2.1 e.2.2.1 e.2.2.2) c).y = c.y ∧
                (l.foldl (fun ch e => ch.setBlock e.1 e.2.1 e.2.2.1 e.2.2.2) c).z = c.z := by
            intro l
            induction l with
            | nil => exact fun c => ⟨rfl, rfl, rfl⟩
            | cons e rest ih =>
                intro c
                rw [List.foldl_cons]
                obtain ⟨h1, h2, h3⟩ := ih (c.setBlock e.1 e.2.1 e.2.2.1 e.2.2.2)
                obtain ⟨g1, g2, g3, _⟩ := setBlock_coords_len c e.1 e.2.1 e.2.2.1 e.2.2.2 true
                exact ⟨h1.trans g1, h2.trans g2, h3.trans g3⟩
          obtain ⟨h1, h2, h3⟩ := this _ (Chunk.init d.x d.y d.z)
          exact ⟨h1, h2, h3⟩
        · exact ⟨rfl, rfl, rfl⟩

/-- generateChunk keeps coordinates and the array length. -/
theorem generateChunk_coords_len (tg : TerrainGenerator) (c : Chunk) :
    (tg.generateChunk c).x = c.x ∧ (tg.generateChunk c).y = c.y ∧
      (tg.generateChunk c).z = c.z ∧
      (tg.generateChunk c).blocks.length = c.blocks.length := by
  have hs := chunkShape_generateChunk tg c
  rw [chunkShape, chunkShape] at hs
  exact ⟨congrArg (fun q => q.1.1) hs, congrArg (fun q => q.1.2.1) hs,
    congrArg (fun q => q.1.2.2) hs, congrArg (fun q => q.2.1) hs⟩

/-- The chunk createChunk returns has the requested coordinates and a
4096-cell array, when the map satisfies the invariant. -/
theorem createChunk_snd_props (w : World) (cx cy cz : Int) (hwf : entriesWF w.chunks) :
    ((w.createChunk cx cy cz).2.x, (w.createChunk cx cy cz).2.y,
      (w.createChunk cx cy cz).2.z) = ((cx, cy, cz) : ChunkKey) ∧
      (w.createChunk cx cy cz).2.blocks.length = 4096 := by
  rw [World.createChunk]
  split
  · rename_i c hc
    exact hwf _ (mem_of_assocGet _ _ _ hc)
  · obtain ⟨h1, h2, h3, h4⟩ := generateChunk_coords_len w.tg (Chunk.init cx cy cz)
    refine ⟨?_, by
      rw [h4, show (Chunk.init cx cy cz).blocks = List.replicate 4096 0 from rfl,
        List.length_replicate]⟩
    rw [h1, h2, h3]
    rfl

/-- An absent key never tests positive in any. -/
theorem not_any_of_assocGet_none (m : List (ChunkKey × Chunk)) (k : ChunkKey)
    (h : assocGet m k = none) : m.any (fun p => decide (p.1 = k)) = false := by
  induction m with
  | nil => rfl
  | cons p rest ih =>
      rw [assocGet] at h
      by_cases hp : p.1 = k
      · rw [if_pos hp] at h
        cases h
      · rw [if_neg hp] at h
        rw [List.any_cons, ih h, decide_eq_false hp]
        rfl

/-- Map.set preserves the per-entry invariant when the new entry satisfies
it. -/
theorem assocSet_entriesWF (m : List (ChunkKey × Chunk)) (k : ChunkKey) (c : Chunk)
    (hm : entriesWF m) (hc : (c.x, c.y, c.z) = k ∧ c.blocks.length = 4096) :
    entriesWF (assocSet m k c) := by
  rw [assocSet]
  split
  · intro p hp
    obtain ⟨q, hq, hqp⟩ := List.mem_map.mp hp
    by_cases hqk : q.1 = k
    · rw [if_pos hqk] at hqp
      rw [← hqp]
      exact hc
    · rw [if_neg hqk] at hqp
      rw [← hqp]
      exact hm q hq
  · intro p hp
    rcases List.mem_append.mp hp with h1 | h1
    · exact hm p h1
    · rw [List.mem_singleton] at h1
      rw [h1]
      exact hc

/-- createChunk preserves the whole invariant. -/
theorem createChunk_WF (w : World) (cx cy cz : Int) (hwf : w.WF) :
    (w.createChunk cx cy cz).1.WF := by
  obtain ⟨hent, hnd⟩ := hwf
  rw [World.createChunk]
  split
  · exact ⟨hent, hnd⟩
  · constructor
    · apply assocSet_entriesWF _ _ _ hent
      obtain ⟨h1, h2, h3, h4⟩ := generateChunk_coords_len w.tg (Chunk.init cx cy cz)
      refine ⟨?_, by
      rw [h4, show (Chunk.init cx cy cz).blocks = List.replicate 4096 0 from rfl,
        List.length_replicate]⟩
      rw [h1, h2, h3]
      rfl
    · exact assocSet_nodup _ _ _ hnd

/-- markNeighborDirty preserves the whole invariant. -/
theorem markNeighborDirty_WF (w : World) (k : ChunkKey) (hwf : w.WF) :
    (markNeighborDirty w k).WF := by
  obtain ⟨hent, hnd⟩ := hwf
  rw [markNeighborDirty]
  split
  · rename_i nc hnc
    constructor
    · apply assocSet_entriesWF _ _ _ hent
      have := hent _ (mem_of_assocGet _ _ _ hnc)
      exact ⟨this.1, this.2⟩
    · exact assocSet_nodup _ _ _ hnd
  · exact ⟨hent, hnd⟩

/-- The boundary cascade preserves the whole invariant. -/
theorem markBoundaryNeighbors_WF (w : World) (cp lp : Int × Int × Int)
    (hwf : w.WF) : (markBoundaryNeighbors w cp lp).WF := by
  rw [markBoundaryNeighbors]
  repeat' split
  all_goals
    repeat
      first
        | exact hwf
        | apply markNeighborDirty_WF

/-- World.setBlock preserves the whole invariant. -/
theorem setBlock_WF (w : World) (x y z : Int) (id : Nat) (hwf : w.WF) :
    (w.setBlock x y z id).WF := by
  rw [World.setBlock]
  apply markBoundaryNeighbors_WF
  have hwf1 := createChunk_WF w (worldToChunk x y z).1 (worldToChunk x y z).2.1
    (worldToChunk x y z).2.2 hwf
  obtain ⟨hent1, hnd1⟩ := hwf1
  constructor
  · apply assocSet_entriesWF _ _ _ hent1
    obtain ⟨hco, hlen⟩ := createChunk_snd_props w (worldToChunk x y z).1
      (worldToChunk x y z).2.1 (worldToChunk x y z).2.2 hwf.1
    obtain ⟨g1, g2, g3, g4⟩ := setBlock_coords_len
      (w.createChunk (worldToChunk x y z).1 (worldToChunk x y z).2.1
        (worldToChunk x y z).2.2).2
      (worldToLocal x y z).1 (worldToLocal x y z).2.1 (worldToLocal x y z).2.2 id true
    constructor
    · show ((_ : Chunk).x, _, _) = _
      rw [show ({ (w.createChunk (worldToChunk x y z).1 (worldToChunk x y z).2.1
          (worldToChunk x y z).2.2).2.setBlock (worldToLocal x y z).1
          (worldToLocal x y z).2.1 (worldToLocal x y z).2.2 id with
          modified := true } : Chunk).x = ((w.createChunk (worldToChunk x y z).1
          (worldToChunk x y z).2.1 (worldToChunk x y z).2.2).2.setBlock
          (worldToLocal x y z).1 (worldToLocal x y z).2.1 (worldToLocal x y z).2.2
          id).x from rfl, g1]
      rw [show ({ (w.createChunk (worldToChunk x y z).1 (worldToChunk x y z).2.1
          (worldToChunk x y z).2.2).2.setBlock (worldToLocal x y z).1
          (worldToLocal x y z).2.1 (worldToLocal x y z).2.2 id with
          modified := true } : Chunk).y = ((w.createChunk (worldToChunk x y z).1
          (worldToChunk x y z).2.1 (worldToChunk x y z).2.2).2.setBlock
          (worldToLocal x y z).1 (worldToLocal x y z).2.1 (worldToLocal x y z).2.2
          id).y from rfl, g2]
      rw [show ({ (w.createChunk (worldToChunk x y z).1 (worldToChunk x y z).2.1
          (worldToChunk x y z).2.2).2.setBlock (worldToLocal x y z).1
          (worldToLocal x y z).2.1 (worldToLocal x y z).2.2 id with
          modified := true } : Chunk).z = ((w.createChunk (worldToChunk x y z).1
          (worldToChunk x y z).2.1 (worldToChunk x y z).2.2).2.setBlock
          (worldToLocal x y z).1 (worldToLocal x y z).2.1 (worldToLocal x y z).2.2
          id).z from rfl, g3]
      rw [g1, g2, g3] at *
      exact hco
    · show ((_ : Chunk).blocks.length) = 4096
      rw [show ({ (w.createChunk (worldToChunk x y z).1 (worldToChunk x y z).2.1
          (worldToChunk x y z).2.2).2.setBlock (worldToLocal x y z).1
          (worldToLocal x y z).2.1 (worldToLocal x y z).2.2 id with
          modified := true } : Chunk).blocks = ((w.createChunk (worldToChunk x y z).1
          (worldToChunk x y z).2.1 (worldToChunk x y z).2.2).2.setBlock
          (worldToLocal x y z).1 (worldToLocal x y z).2.1 (worldToLocal x y z).2.2
          id).blocks from rfl, g4, hlen]
  · exact assocSet_nodup _ _ _ hnd1

/-- applyEdits preserves the whole invariant. -/
theorem applyEdits_WF (edits : List Edit) (w : World) (hwf : w.WF) :
    (applyEdits w edits).WF := by
  induction edits generalizing w with
  | nil => exact hwf
  | cons e rest ih =>
      rw [applyEdits, List.foldl_cons]
      exact ih _ (setBlock_WF _ _ _ _ _ hwf)

/-- Unfolding one edit from the edit sequence. -/
theorem applyEdits_cons (w : World) (e : Edit) (rest : List Edit) :
    applyEdits w (e :: rest) =
      applyEdits (w.setBlock e.1 e.2.1 e.2.2.1 e.2.2.2) rest := rfl

/-- Writing a cell through setBlock (then forcing modified, as World.setBlock
does) stores the truncated id at the cell index of the world coordinate. -/
theorem setBlock_then_modified_getD (ch : Chunk) (x y z : Int) (id : Nat)
    (hlen : ch.blocks.length = 4096) :
    ({ ch.setBlock (worldToLocal x y z).1 (worldToLocal x y z).2.1
        (worldToLocal x y z).2.2 id with modified := true } : Chunk).blocks.getD
      (editIndex x y z) 0 = id % 256 := by
  rw [Chunk.setBlock]
  simp only [worldToLocal]
  rw [if_neg (by
    have hx := jsFloorMod_bounds x
    have hy := jsFloorMod_bounds y
    have hz := jsFloorMod_bounds z
    omega)]
  show (ch.blocks.set (editIndex x y z) (id % 256)).getD (editIndex x y z) 0 = id % 256
  exact getD_set_self _ _ _ (by rw [hlen]; exact editIndex_lt x y z)

/-- Writing a different world coordinate of the same chunk leaves the cell at
our index unchanged. -/
theorem setBlock_then_modified_getD_ne (ch : Chunk) (x y z a b c : Int) (id : Nat)
    (hcp : worldToChunk a b c = worldToChunk x y z)
    (hne : ¬(a = x ∧ b = y ∧ c = z)) :
    ({ ch.setBlock (worldToLocal a b c).1 (worldToLocal a b c).2.1
        (worldToLocal a b c).2.2 id with modified := true } : Chunk).blocks.getD
      (editIndex x y z) 0 = ch.blocks.getD (editIndex x y z) 0 := by
  rw [Chunk.setBlock]
  simp only [worldToLocal]
  rw [if_neg (by
    have hx := jsFloorMod_bounds a
    have hy := jsFloorMod_bounds b
    have hz := jsFloorMod_bounds c
    omega)]
  show (ch.blocks.set (editIndex a b c) (id % 256)).getD (editIndex x y z) 0 = _
  exact getD_set_ne _ _ _ _ (editIndex_inj a b c x y z hcp hne)

/-- World.setBlock establishes the tracked cell state at the edited
coordinate, with the id truncated to a byte. -/
theorem setBlock_cellState (w : World) (x y z : Int) (id : Nat) (hwf : w.WF) :
    cellState (w.setBlock x y z id) x y z (id % 256) := by
  rw [cellState, World.setBlock]
  apply markBoundaryNeighbors_get_prop
    (fun c => c.modified = true ∧ c.blocks.getD (editIndex x y z) 0 = id % 256)
    (fun c hc => hc)
  exact ⟨_, assocGet_set_self _ _ _, rfl,
    setBlock_then_modified_getD _ x y z id
      (createChunk_snd_props w _ _ _ hwf.1).2⟩

/-- World.setBlock at any other world coordinate preserves the tracked cell
state. -/
theorem setBlock_cellState_pres (w : World) (x y z a b c : Int) (id v : Nat)
    (hne : ¬(a = x ∧ b = y ∧ c = z)) (hQ : cellState w x y z v) :
    cellState (w.setBlock a b c id) x y z v := by
  obtain ⟨ch, hget, hmod, hval⟩ := hQ
  rw [cellState, World.setBlock]
  apply markBoundaryNeighbors_get_prop
    (fun c2 => c2.modified = true ∧ c2.blocks.getD (editIndex x y z) 0 = v)
    (fun c2 hc2 => hc2)
  by_cases hcp : worldToChunk a b c = worldToChunk x y z
  · rw [hcp]
    have hcc : w.createChunk (worldToChunk x y z).1 (worldToChunk x y z).2.1
        (worldToChunk x y z).2.2 = (w, ch) := by
      rw [World.createChunk,
        show assocGet w.chunks ((worldToChunk x y z).1, (worldToChunk x y z).2.1,
          (worldToChunk x y z).2.2) = some ch from hget]
    rw [hcc]
    refine ⟨_, assocGet_set_self _ _ _, rfl, ?_⟩
    show ({ ch.setBlock (worldToLocal a b c).1 (worldToLocal a b c).2.1
        (worldToLocal a b c).2.2 id with modified := true } : Chunk).blocks.getD
      (editIndex x y z) 0 = v
    rw [setBlock_then_modified_getD_ne ch x y z a b c id hcp hne]
    exact hval
  · refine ⟨ch, ?_, hmod, hval⟩
    rw [assocGet_set_ne _ _ _ _ (fun he => hcp he.symm)]
    have hne2 : worldToChunk x y z ≠ ((worldToChunk a b c).1,
        (worldToChunk a b c).2.1, (worldToChunk a b c).2.2) :=
      fun he => hcp (by rw [he])
    have hccne : assocGet ((w.createChunk (worldToChunk a b c).1
        (worldToChunk a b c).2.1 (worldToChunk a b c).2.2).1).chunks
        (worldToChunk x y z) = assocGet w.chunks (worldToChunk x y z) :=
      createChunk_get_ne _ _ _ _ _ hne2
    rw [hccne]
    exact hget

/-- A run of edits away from our coordinate preserves the tracked cell
state. -/
theorem applyEdits_cellState_pres (rest : List Edit) (w : World) (x y z : Int)
    (v : Nat) (hne : ∀ e ∈ rest, ¬(e.1 = x ∧ e.2.1 = y ∧ e.2.2.1 = z))
    (hQ : cellState w x y z v) : cellState (applyEdits w rest) x y z v := by
  induction rest generalizing w with
  | nil => exact hQ
  | cons e rest2 ih =>
      rw [applyEdits_cons]
      exact ih _ (fun e2 h2 => hne e2 (List.mem_cons_of_mem _ h2))
        (setBlock_cellState_pres w x y z e.1 e.2.1 e.2.2.1 e.2.2.2 v
          (hne e (List.mem_cons_self _ _)) hQ)

/-- After an edit sequence containing our coordinate (all ids at most 15),
the coordinate holds a tracked value below 16 in a loaded, modified chunk. -/
theorem applyEdits_cellState : ∀ (edits : List Edit) (w : World) (x y z : Int),
    w.WF → (∀ e ∈ edits, e.2.2.2 ≤ 15) → (∃ id, (x, y, z, id) ∈ edits) →
    ∃ v, v < 16 ∧ cellState (applyEdits w edits) x y z v
  | [], _, x, y, z, _, _, hedit => by
      obtain ⟨id, h⟩ := hedit
      simp at h
  | e :: rest, w, x, y, z, hwf, hid, hedit => by
      by_cases hrest : ∃ id, (x, y, z, id) ∈ rest
      · have := applyEdits_cellState rest (w.setBlock e.1 e.2.1 e.2.2.1 e.2.2.2)
          x y z (setBlock_WF _ _ _ _ _ hwf)
          (fun e2 h2 => hid e2 (List.mem_cons_of_mem _ h2)) hrest
        rwa [applyEdits_cons]
      · obtain ⟨id0, hid0⟩ := hedit
        have he : e = (x, y, z, id0) := by
          rcases List.mem_cons.mp hid0 with h | h
          · exact h.symm
          · exact absurd ⟨id0, h⟩ hrest
        subst he
        refine ⟨id0 % 256, ?_, ?_⟩
        · have h15 : id0 ≤ 15 := hid _ (List.mem_cons_self _ _)
          omega
        · rw [applyEdits_cons]
          apply applyEdits_cellState_pres rest _ x y z _ ?_
            (setBlock_cellState w x y z id0 hwf)
          intro e2 he2 hco
          apply hrest
          refine ⟨e2.2.2.2, ?_⟩
          have he2eq : (x, y, z, e2.2.2.2) = e2 := by
            obtain ⟨h1, h2, h3⟩ := hco
            rw [← h1, ← h2, ← h3]
          rw [he2eq]
          exact he2

/-- The tracked cell state determines World.getBlock. -/
theorem getBlock_of_cellState (w : World) (x y z : Int) (v : Nat)
    (h : cellState w x y z v) : w.getBlock x y z = v := by
  obtain ⟨c, hget, _, hval⟩ := h
  rw [World.getBlock, hget]
  show c.getBlock (worldToLocal x y z).1 (worldToLocal x y z).2.1
    (worldToLocal x y z).2.2 = v
  rw [Chunk.getBlock]
  simp only [worldToLocal]
  rw [if_neg (by
    have hx := jsFloorMod_bounds x
    have hy := jsFloorMod_bounds y
    have hz := jsFloorMod_bounds z
    omega)]
  exact hval

/-- Folding deserialized records whose coordinates all differ from k leaves
the lookup at k unchanged. -/
theorem deserializeFold_get_ne (records : List ChunkRecord)
    (m0 : List (ChunkKey × Chunk)) (k : ChunkKey)
    (h : ∀ r ∈ records, ((r.x, r.y, r.z) : ChunkKey) ≠ k) :
    assocGet (records.foldl (fun m cd =>
      assocSet m ((Chunk.deserialize cd).x, (Chunk.deserialize cd).y,
        (Chunk.deserialize cd).z) (Chunk.deserialize cd)) m0) k =
      assocGet m0 k := by
  induction records generalizing m0 with
  | nil => rfl
  | cons r0 rest ih =>
      rw [List.foldl_cons, ih _ (fun r2 h2 => h r2 (List.mem_cons_of_mem _ h2))]
      apply assocGet_set_ne
      obtain ⟨h1, h2, h3⟩ := deserialize_coords r0
      rw [h1, h2, h3]
      exact fun he => h r0 (List.mem_cons_self _ _) he.symm

/-- With distinct record coordinates, the deserialization fold stores each
record at its own coordinates. -/
theorem deserializeFold_get_mem : ∀ (records : List ChunkRecord)
    (m0 : List (ChunkKey × Chunk)) (r : ChunkRecord), r ∈ records →
    (records.map (fun r2 => ((r2.x, r2.y, r2.z) : ChunkKey))).Nodup →
    assocGet (records.foldl (fun m cd =>
      assocSet m ((Chunk.deserialize cd).x, (Chunk.deserialize cd).y,
        (Chunk.deserialize cd).z) (Chunk.deserialize cd)) m0)
      ((r.x, r.y, r.z) : ChunkKey) = some (Chunk.deserialize r)
  | [], m0, r, hr, hnd => by simp at hr
  | r0 :: rest, m0, r, hr, hnd => by
      rw [List.map_cons, List.nodup_cons] at hnd
      rcases List.mem_cons.mp hr with he | hmem
      · subst he
        rw [List.foldl_cons]
        rw [deserializeFold_get_ne rest _ _ (fun r2 h2 he2 =>
          hnd.1 (by rw [← he2]; exact List.mem_map.mpr ⟨r2, h2, rfl⟩))]
        obtain ⟨h1, h2, h3⟩ := deserialize_coords r
        have hk : (((Chunk.deserialize r).x, (Chunk.deserialize r).y,
            (Chunk.deserialize r).z) : ChunkKey) = ((r.x, r.y, r.z) : ChunkKey) := by
          rw [h1, h2, h3]
        rw [← hk]
        exact assocGet_set_self _ _ _
      · rw [List.foldl_cons]
        exact deserializeFold_get_mem rest _ r hmem hnd.2

set_option maxRecDepth 8192 in
/-- Decoding the record a chunk serializes to recovers the unpack of its
packed cells. -/
theorem deserialize_serialize_blocks (c : Chunk) (hlen : c.blocks.length = 4096) :
    (Chunk.deserialize c.serialize).blocks = unpack (pack c.blocks) 4096 := by
  show unpack (rleExpand ((some (rleEncode (pack c.blocks))).getD [])) 4096 =
    unpack (pack c.blocks) 4096
  rw [Option.getD_some]
  have hne : pack c.blocks ≠ [] := by
    have hpl := pack_length c.blocks
    rw [hlen] at hpl
    intro h
    rw [h] at hpl
    simp at hpl
  obtain ⟨b, rest, hbr⟩ : ∃ b rest, pack c.blocks = b :: rest := by
    cases hp : pack c.blocks with
    | nil => exact absurd hp hne
    | cons b rest => exact ⟨b, rest, rfl⟩
  have hby : ∀ v ∈ b :: rest, v < 256 := by
    rw [← hbr]
    exact pack_lt_256 c.blocks
  rw [hbr, rleEncode, rleExpand_rleLoop,
    map_mod256_self rest (fun v hv => hby v (List.mem_cons_of_mem _ hv)),
    Nat.mod_eq_of_lt (hby b (List.mem_cons_self _ _))]
  rfl

/-- Deserializing the serialized world reads back, at any coordinate owned by
a loaded modified chunk, the original cell truncated to 4 bits. -/
theorem roundtrip_getBlock (w : World) (hwf : w.WF) (tg2 : TerrainGenerator)
    (x y z : Int) (c : Chunk)
    (hget : assocGet w.chunks (worldToChunk x y z) = some c)
    (hmod : c.modified = true) :
    (World.deserialize tg2 w.serialize).getBlock x y z =
      c.blocks.getD (editIndex x y z) 0 % 16 := by
  have hcmem : (worldToChunk x y z, c) ∈ w.chunks := mem_of_assocGet _ _ _ hget
  have hrec : c.serialize ∈ w.serialize.chunks := by
    rw [World.serialize]
    exact List.mem_map.mpr ⟨(worldToChunk x y z, c),
      List.mem_filter.mpr ⟨hcmem, hmod⟩, rfl⟩
  have hnd2 : (w.serialize.chunks.map
      (fun r => ((r.x, r.y, r.z) : ChunkKey))).Nodup := by
    rw [World.serialize]
    show (((w.chunks.filter (fun p => p.2.modified)).map
      (fun p => p.2.serialize)).map (fun r => ((r.x, r.y, r.z) : ChunkKey))).Nodup
    rw [List.map_map]
    have hmc : (w.chunks.filter (fun p => p.2.modified)).map
        ((fun r => ((r.x, r.y, r.z) : ChunkKey)) ∘ (fun p => p.2.serialize)) =
        (w.chunks.filter (fun p => p.2.modified)).map (fun p => p.1) := by
      apply List.map_congr_left
      intro p hp
      have hpm := (List.mem_filter.mp hp).1
      show ((p.2.x, p.2.y, p.2.z) : ChunkKey) = p.1
      exact (hwf.1 p hpm).1
    rw [hmc]
    exact ((List.filter_sublist w.chunks).map (fun p => p.1)).nodup hwf.2
  have hkey : ((c.serialize.x, c.serialize.y, c.serialize.z) : ChunkKey) =
      worldToChunk x y z := (hwf.1 _ hcmem).1
  have hdget : assocGet (World.deserialize tg2 w.serialize).chunks
      (worldToChunk x y z) = some (Chunk.deserialize c.serialize) := by
    rw [World.deserialize, ← hkey]
    exact deserializeFold_get_mem _ _ _ hrec hnd2
  rw [World.getBlock, hdget]
  show (Chunk.deserialize c.serialize).getBlock (worldToLocal x y z).1
    (worldToLocal x y z).2.1 (worldToLocal x y z).2.2 =
    c.blocks.getD (editIndex x y z) 0 % 16
  rw [Chunk.getBlock]
  simp only [worldToLocal]
  rw [if_neg (by
    have hx := jsFloorMod_bounds x
    have hy := jsFloorMod_bounds y
    have hz := jsFloorMod_bounds z
    omega)]
  have hlen := (hwf.1 _ hcmem).2
  show (Chunk.deserialize c.serialize).blocks.getD (editIndex x y z) 0 =
    c.blocks.getD (editIndex x y z) 0 % 16
  rw [deserialize_serialize_blocks c hlen, ← hlen]
  exact unpack_pack_getD _ _ (by rw [hlen]; exact editIndex_lt x y z)

set_option maxRecDepth 100000 in
/-- C1 counterexample — the claim quantifies over every finite sequence of
World.setBlock edits, but an edit with block id 16 survives in the live world
(Uint8Array cell) and is truncated to 0 by the 4-bit packing, so the
round-tripped world disagrees with the edited world at the edited
coordinate. -/
theorem world_roundtrip_counterexample :
    (applyEdits (World.init 0 tgFlat) [(0, 16, 0, 16)]).getBlock 0 16 0 = 16 ∧
      (World.deserialize tgFlat
        (applyEdits (World.init 0 tgFlat) [(0, 16, 0, 16)]).serialize).getBlock
        0 16 0 = 0 :=
  ⟨rfl, rfl⟩

/-- C1 amended — World save/load round-trip for in-range ids: for every
well-formed world and every finite sequence of World.setBlock edits whose
block ids lie in [0, 15], serializing the edited world and deserializing the
result yields a world in which World.getBlock at every edited coordinate
returns the same block id the original world held there after the edits. -/
theorem world_roundtrip (tg2 : TerrainGenerator) (w0 : World) (hwf : w0.WF)
    (edits : List Edit) (hid : ∀ e ∈ edits, e.2.2.2 ≤ 15)
    (x y z : Int) (hedit : ∃ id, (x, y, z, id) ∈ edits) :
    (World.deserialize tg2 (applyEdits w0 edits).serialize).getBlock x y z =
      (applyEdits w0 edits).getBlock x y z := by
  obtain ⟨v, hv, hQ⟩ := applyEdits_cellState edits w0 x y z hwf hid hedit
  obtain ⟨c, hget, hmod, hval⟩ := hQ
  have h1 : (applyEdits w0 edits).getBlock x y z = v :=
    getBlock_of_cellState _ _ _ _ _ ⟨c, hget, hmod, hval⟩
  have h2 := roundtrip_getBlock (applyEdits w0 edits)
    (applyEdits_WF edits w0 hwf) tg2 x y z c hget hmod
  rw [h2, h1, hval]
  exact Nat.mod_eq_of_lt hv

/-- Witness for C1 at a concrete world, edit list and coordinate. -/
theorem world_roundtrip_witness :
    (World.init 0 tgFlat).WF ∧
      (∀ e ∈ ([(0, 16, 0, 7)] : List Edit), e.2.2.2 ≤ 15) ∧
      (∃ id, ((0 : Int), (16 : Int), (0 : Int), id) ∈ ([(0, 16, 0, 7)] : List Edit)) ∧
      (World.deserialize tgFlat
        (applyEdits (World.init 0 tgFlat) [(0, 16, 0, 7)]).serialize).getBlock
        0 16 0 =
        (applyEdits (World.init 0 tgFlat) [(0, 16, 0, 7)]).getBlock 0 16 0 :=
  ⟨⟨fun p hp => absurd hp (List.not_mem_nil p), List.nodup_nil⟩,
   by decide, ⟨7, by decide⟩,
   world_roundtrip tgFlat (World.init 0 tgFlat)
     ⟨fun p hp => absurd hp (List.not_mem_nil p), List.nodup_nil⟩
     [(0, 16, 0, 7)] (by decide) 0 16 0 ⟨7, by decide⟩⟩

end LittleCubes
